import Mathlib

/-!
Shallow embedding of Redex's constant-propagation transform
(`opt/constant-propagation/ConstantPropagationTransform.cpp`) and the parts of
its environment that the verified properties need.  Pure data is modelled with
inductive types, the imperative accumulation of replacements/deletions with
explicit state passing, and every `always_assert` with an `Option` result
(`none` = fatal abort).  External collaborators (the fixpoint engine, the
symbol resolver, the whole-program field summary) are parameters, as the spec
treats them as interfaces only.
-/

/-- The pluggable abstract-value lattice, instantiated at the contract the spec
demands: `top` (unknown), `bottom` (impossible), exact constants, and `meet`.
This is the constant component of Redex's `SignedConstantDomain`. -/
inductive SignedConstantDomain where
  | bottom
  | top
  | const (k : Int)
deriving DecidableEq, Repr

/-- `ConstantValue` in the source is a sum of domains; the claims only exercise
its signed-constant component. -/
abbrev ConstantValue := SignedConstantDomain

def SignedConstantDomain.meet : SignedConstantDomain → SignedConstantDomain → SignedConstantDomain
  | SignedConstantDomain.bottom, _ => SignedConstantDomain.bottom
  | _, SignedConstantDomain.bottom => SignedConstantDomain.bottom
  | SignedConstantDomain.top, v => v
  | v, SignedConstantDomain.top => v
  | SignedConstantDomain.const a, SignedConstantDomain.const b =>
      if a = b then SignedConstantDomain.const a else SignedConstantDomain.bottom

def SignedConstantDomain.is_bottom : SignedConstantDomain → Bool
  | SignedConstantDomain.bottom => true
  | _ => false

def SignedConstantDomain.is_top : SignedConstantDomain → Bool
  | SignedConstantDomain.top => true
  | _ => false

/-- Modelled from the spec: `runtime_equals_visitor` (defined outside this
excerpt) is the "could this concrete runtime value ever already equal this
abstract value" predicate used for redundant-store detection; it holds exactly
when both abstract values are the same exact constant. -/
def runtimeEquals : SignedConstantDomain → SignedConstantDomain → Bool
  | SignedConstantDomain.const a, SignedConstantDomain.const b => decide (a = b)
  | _, _ => false

/-- The opcodes the transform dispatches on, mirroring the case lists written
out in the source (all 14 `sput`/`iput` variants, all 15 `*_int_lit*`
arithmetic opcodes, the `move-result-pseudo` family, etc.). -/
inductive Opcode where
  | sput | sput_boolean | sput_byte | sput_char | sput_object | sput_short | sput_wide
  | iput | iput_boolean | iput_byte | iput_char | iput_object | iput_short | iput_wide
  | move | move_wide
  | move_result_pseudo | move_result_pseudo_wide | move_result_pseudo_object
  | move_result | move_result_wide | move_result_object
  | add_int_lit16 | add_int_lit8 | rsub_int | rsub_int_lit8
  | mul_int_lit16 | mul_int_lit8 | and_int_lit16 | and_int_lit8
  | or_int_lit16 | or_int_lit8 | xor_int_lit16 | xor_int_lit8
  | shl_int_lit8 | shr_int_lit8 | ushr_int_lit8
  | sget | iget | aget
  | div_int_lit16 | div_int_lit8 | rem_int_lit16 | rem_int_lit8
  | if_eq | if_ne
  | packed_switch | sparse_switch
  | goto
  | const | const_wide
  | nop
deriving DecidableEq, Repr

/-- The 14 static/instance field store opcodes enumerated in
`eliminate_redundant_put`'s switch. -/
def is_put : Opcode → Bool
  | Opcode.sput | Opcode.sput_boolean | Opcode.sput_byte | Opcode.sput_char
  | Opcode.sput_object | Opcode.sput_short | Opcode.sput_wide
  | Opcode.iput | Opcode.iput_boolean | Opcode.iput_byte | Opcode.iput_char
  | Opcode.iput_object | Opcode.iput_short | Opcode.iput_wide => true
  | _ => false

/-- The 15 arithmetic-with-literal opcodes enumerated in
`simplify_instruction`'s switch. -/
def is_arith_lit : Opcode → Bool
  | Opcode.add_int_lit16 | Opcode.add_int_lit8 | Opcode.rsub_int | Opcode.rsub_int_lit8
  | Opcode.mul_int_lit16 | Opcode.mul_int_lit8 | Opcode.and_int_lit16 | Opcode.and_int_lit8
  | Opcode.or_int_lit16 | Opcode.or_int_lit8 | Opcode.xor_int_lit16 | Opcode.xor_int_lit8
  | Opcode.shl_int_lit8 | Opcode.shr_int_lit8 | Opcode.ushr_int_lit8 => true
  | _ => false

def is_move_result_pseudo : Opcode → Bool
  | Opcode.move_result_pseudo | Opcode.move_result_pseudo_wide
  | Opcode.move_result_pseudo_object => true
  | _ => false

def is_sget : Opcode → Bool
  | Opcode.sget => true
  | _ => false

def is_iget : Opcode → Bool
  | Opcode.iget => true
  | _ => false

def is_aget : Opcode → Bool
  | Opcode.aget => true
  | _ => false

def is_div_int_lit : Opcode → Bool
  | Opcode.div_int_lit16 | Opcode.div_int_lit8 => true
  | _ => false

def is_rem_int_lit : Opcode → Bool
  | Opcode.rem_int_lit16 | Opcode.rem_int_lit8 => true
  | _ => false

def is_conditional_branch : Opcode → Bool
  | Opcode.if_eq | Opcode.if_ne => true
  | _ => false

def is_switch : Opcode → Bool
  | Opcode.packed_switch | Opcode.sparse_switch => true
  | _ => false

def is_branch (op : Opcode) : Bool :=
  is_conditional_branch op || is_switch op || decide (op = Opcode.goto)

/-- One IR instruction.  `uid` stands in for C++ pointer identity (replacement
and deletion batches are keyed on the `IRInstruction*`).  `fieldRef` is the
embedded field reference of put/get instructions, `literal` the embedded
literal. -/
structure IRInstruction where
  uid : Nat
  opcode : Opcode
  dest : Nat
  srcs : List Nat
  fieldRef : Nat
  literal : Int
deriving DecidableEq, Repr

def IRInstruction.src (insn : IRInstruction) (i : Nat) : Nat :=
  insn.srcs.getD i 0

/-- A resolved field definition: its reference id and its declaring class. -/
structure DexField where
  ref : Nat
  cls : Nat
deriving DecidableEq, Repr

/-- Branch-target kinds of `MFLOW_TARGET` entries. -/
inductive BranchType where
  | multi
  | simple
deriving DecidableEq, Repr

/-- A `MethodItemEntry`: an instruction, a branch-target label (with the uid of
the branching source instruction and, for switch labels, the case key), or a
plain fallthrough marker. -/
inductive Mie where
  | insn (i : IRInstruction)
  | target (btype : BranchType) (srcUid : Nat) (caseKey : Int)
  | fallthrough
deriving DecidableEq, Repr

def mieInsn : Mie → Option IRInstruction
  | Mie.insn i => some i
  | _ => none

inductive EdgeType where
  | goto
  | branch
  | ghost
deriving DecidableEq, Repr

/-- A CFG edge; `target` is the successor block's id. -/
structure Edge where
  ttype : EdgeType
  target : Nat
deriving DecidableEq, Repr

/-- A basic block: its id, its ordered method item entries, and its outgoing
edges. -/
structure Block where
  id : Nat
  entries : List Mie
  succs : List Edge
deriving DecidableEq, Repr

/-- A control-flow graph.  `editable` mirrors `cfg.editable()`. -/
structure Cfg where
  editable : Bool
  blocks : List Block
deriving DecidableEq, Repr

def findBlock (cfg : Cfg) (bid : Nat) : Option Block :=
  cfg.blocks.find? (fun b => decide (b.id = bid))

def updateBlock (cfg : Cfg) (bid : Nat) (es : List Mie) : Cfg :=
  { cfg with blocks := cfg.blocks.map fun b => if b.id = bid then { b with entries := es } else b }

/-- `Block::get_last_insn`: the last `MFLOW_OPCODE` entry. -/
def Block.lastInsn (b : Block) : Option IRInstruction :=
  (b.entries.filterMap mieInsn).getLast?

/-- The registers-and-fields environment of the constant-propagation analysis.
Fields are keyed by resolved field reference. -/
structure ConstantEnvironment where
  isBottom : Bool
  regs : Nat → SignedConstantDomain
  fields : Nat → SignedConstantDomain

def ConstantEnvironment.getReg (env : ConstantEnvironment) (r : Nat) : SignedConstantDomain :=
  if env.isBottom then SignedConstantDomain.bottom else env.regs r

def ConstantEnvironment.getField (env : ConstantEnvironment) (f : DexField) : SignedConstantDomain :=
  if env.isBottom then SignedConstantDomain.bottom else env.fields f.ref

/-- External collaborator: the intraprocedural fixpoint engine, consumed
through its interface only (spec section 6). -/
structure FixpointIterator where
  entry_state : Nat → ConstantEnvironment
  analyze_instruction : IRInstruction → ConstantEnvironment → ConstantEnvironment
  analyze_edge : Edge → ConstantEnvironment → ConstantEnvironment

/-- External collaborator: read-only whole-program field summary. -/
structure WholeProgramState where
  get_field_value : DexField → SignedConstantDomain

/-- The transform's configuration (`m_config`). -/
structure Config where
  class_under_init : Option Nat
  replace_moves_with_consts : Bool
  remove_dead_switch : Bool

/-- The transform's accumulated per-method state: the batched replacement and
deletion sets plus the two statistics counters. -/
structure TState where
  replacements : List (IRInstruction × List IRInstruction)
  deletes : List IRInstruction
  materialized_consts : Nat
  branches_removed : Nat
deriving DecidableEq, Repr

def TState.init : TState := ⟨[], [], 0, 0⟩

def TState.addRepl (st : TState) (old : IRInstruction) (news : List IRInstruction) : TState :=
  { st with replacements := st.replacements ++ [(old, news)] }

def TState.addDelete (st : TState) (i : IRInstruction) : TState :=
  { st with deletes := st.deletes ++ [i] }

def TState.incMat (st : TState) : TState :=
  { st with materialized_consts := st.materialized_consts + 1 }

def TState.incBranches (st : TState) : TState :=
  { st with branches_removed := st.branches_removed + 1 }

/-- The fresh `new IRInstruction(OPCODE_GOTO)` used for branch replacement;
its identity is irrelevant to the batch. -/
def gotoInsn : IRInstruction := ⟨0, Opcode.goto, 0, [], 0, 0⟩

/-- Modelled from the spec: `value_to_instruction_visitor` (defined outside
this excerpt) converts an abstract value into an equivalent constant-load
sequence when it resolves to an exact representable constant, and into the
empty sequence otherwise. -/
def value_to_instruction (v : SignedConstantDomain) (insn : IRInstruction) : List IRInstruction :=
  match v with
  | SignedConstantDomain.const k => [⟨0, Opcode.const, insn.dest, [], 0, k⟩]
  | _ => []

/-- Modelled from the spec: `ir_list::primary_instruction_of_move_result_pseudo`
(IRList, outside this excerpt) returns the instruction of the entry directly
preceding the pseudo, asserting that such an entry exists. -/
def primaryOf : Option Mie → Option IRInstruction
  | some (Mie.insn p) => some p
  | _ => none

/-- `Transform::eliminate_redundant_put`.  `rf` is the external `resolve_field`
symbol resolver. -/
def eliminate_redundant_put (K : Config) (rf : Nat → Option DexField)
    (env : ConstantEnvironment) (wps : WholeProgramState)
    (insn : IRInstruction) (st : TState) : TState :=
  if is_put insn.opcode then
    match rf insn.fieldRef with
    | none => st
    | some field =>
      let existing_val :=
        if K.class_under_init = some field.cls then env.getField field
        else wps.get_field_value field
      let new_val := env.getReg (insn.src 0)
      if runtimeEquals existing_val new_val then st.addDelete insn else st
  else st

/-- `Transform::replace_with_const`.  `prev` is the entry directly preceding
the instruction (needed for the move-result-pseudo target redirection); a
missing primary instruction is a fatal assertion (`none`). -/
def replace_with_const (env : ConstantEnvironment) (prev : Option Mie)
    (insn : IRInstruction) (st : TState) : Option TState :=
  let value := env.getReg insn.dest
  let replacement := value_to_instruction value insn
  if replacement.length = 0 then some st
  else if is_move_result_pseudo insn.opcode then
    match primaryOf prev with
    | none => none
    | some p => some ((st.addRepl p replacement).incMat)
  else some ((st.addRepl insn replacement).incMat)

/-- `Transform::simplify_instruction`. -/
def simplify_instruction (K : Config) (env : ConstantEnvironment) (prev : Option Mie)
    (insn : IRInstruction) (st : TState) : Option TState :=
  match insn.opcode with
  | Opcode.move | Opcode.move_wide =>
      if K.replace_moves_with_consts then replace_with_const env prev insn st else some st
  | Opcode.move_result_pseudo | Opcode.move_result_pseudo_wide
  | Opcode.move_result_pseudo_object =>
      match primaryOf prev with
      | none => none
      | some p =>
          if is_sget p.opcode || is_iget p.opcode || is_aget p.opcode ||
             is_div_int_lit p.opcode || is_rem_int_lit p.opcode then
            replace_with_const env prev insn st
          else some st
  | _ =>
      if is_arith_lit insn.opcode then replace_with_const env prev insn st
      else some st

/-- `remove_dead_switch`'s default-edge discovery loop: the unique `EDGE_GOTO`
target; a second GOTO edge, a GHOST edge, or a missing GOTO edge is a fatal
assertion. -/
def findDefault : List Edge → Option Nat → Option (Option Nat)
  | [], acc => some acc
  | e :: es, acc =>
    match e.ttype with
    | EdgeType.goto =>
        match acc with
        | some _ => none
        | none => findDefault es (some e.target)
    | EdgeType.branch => findDefault es acc
    | EdgeType.ghost => none

/-- `is_switch_label`: an `MFLOW_TARGET` entry of kind `BRANCH_MULTI` whose
source instruction is this switch. -/
def isSwitchLabel (uid : Nat) : Mie → Bool
  | Mie.target btype src _ => decide (btype = BranchType.multi) && decide (src = uid)
  | _ => false

def mieKey : Mie → Int
  | Mie.target _ _ key => key
  | _ => 0

/-- The first `remove_dead_switch` loop over one successor block's entries:
neutralize unreachable / default-targeting labels, track the uniquely
reachable successor and whether optimization is still possible. -/
def rds_scan_entries (eval : SignedConstantDomain) (defId succId uid : Nat) :
    List Mie → Option Nat → Bool → (List Mie × Option Nat × Bool)
  | [], reach, so => ([], reach, so)
  | e :: es, reach, so =>
    if isSwitchLabel uid e then
      if (eval.meet (SignedConstantDomain.const (mieKey e))).is_bottom || decide (defId = succId) then
        let r := rds_scan_entries eval defId succId uid es reach so
        (Mie.fallthrough :: r.1, r.2)
      else
        match reach with
        | some x =>
          let r := rds_scan_entries eval defId succId uid es (some x) false
          (e :: r.1, r.2)
        | none =>
          let r := rds_scan_entries eval defId succId uid es (some succId) so
          (e :: r.1, r.2)
    else
      let r := rds_scan_entries eval defId succId uid es reach so
      (e :: r.1, r.2)

/-- The outer `remove_dead_switch` loop over the successor blocks.  The C++
iterates an `unordered_set<Block*>`; the embedding determinizes that order to
first occurrence among the edge targets (the functions' observable outcomes do
not depend on it). -/
def rds_scan_succs (eval : SignedConstantDomain) (defId uid : Nat) :
    List Nat → Cfg → Option Nat → Bool → (Cfg × Option Nat × Bool)
  | [], cfg, reach, so => (cfg, reach, so)
  | s :: ss, cfg, reach, so =>
    match findBlock cfg s with
    | none => rds_scan_succs eval defId uid ss cfg reach so
    | some b =>
      let r := rds_scan_entries eval defId s uid b.entries reach so
      rds_scan_succs eval defId uid ss (updateBlock cfg s r.1) r.2.1 r.2.2

/-- The second `remove_dead_switch` loop: in the surviving block, the first
remaining label of this switch becomes a `BRANCH_SIMPLE` target for the new
goto and every later one a fallthrough; the boolean is `hasChanged`. -/
def rds_retarget (uid : Nat) : List Mie → Bool → (List Mie × Bool)
  | [], changed => ([], changed)
  | e :: es, changed =>
    if isSwitchLabel uid e then
      if changed then
        let r := rds_retarget uid es changed
        (Mie.fallthrough :: r.1, r.2)
      else
        let e' := match e with
          | Mie.target _ src key => Mie.target BranchType.simple src key
          | x => x
        let r := rds_retarget uid es true
        (e' :: r.1, r.2)
    else
      let r := rds_retarget uid es changed
      (e :: r.1, r.2)

/-- `Transform::remove_dead_switch`.  `none` models a fatal
`always_assert` failure. -/
def remove_dead_switch (K : Config) (env : ConstantEnvironment)
    (cfg : Cfg) (block : Block) (st : TState) : Option (Cfg × TState) :=
  if !K.remove_dead_switch then some (cfg, st)
  else if cfg.editable then some (cfg, st)
  else
    match block.lastInsn with
    | none => none
    | some insn =>
      if !is_switch insn.opcode then none
      else
        match findDefault block.succs none with
        | none => none
        | some none => none
        | some (some defId) =>
          let succIds := (block.succs.map Edge.target).dedup
          let evalSwitch := env.getReg (insn.src 0)
          let scan := rds_scan_succs evalSwitch defId insn.uid succIds cfg none (!evalSwitch.is_top)
          if !scan.2.2 then some (scan.1, st)
          else
            let st1 := st.incBranches
            match scan.2.1 with
            | none => some (scan.1, st1.addDelete insn)
            | some r =>
              let st2 := st1.addRepl insn [gotoInsn]
              match findBlock scan.1 r with
              | none => none
              | some rb =>
                let ret := rds_retarget insn.uid rb.entries false
                if ret.2 then some (updateBlock scan.1 r ret.1, st2) else none

/-- `Transform::eliminate_dead_branch`. -/
def eliminate_dead_branch (K : Config) (intra : FixpointIterator)
    (env : ConstantEnvironment) (cfg : Cfg) (block : Block) (st : TState) :
    Option (Cfg × TState) :=
  match block.lastInsn with
  | none => some (cfg, st)
  | some insn =>
    if is_switch insn.opcode then remove_dead_switch K env cfg block st
    else if !is_conditional_branch insn.opcode then some (cfg, st)
    else
      let succs := block.succs.filter (fun e => decide (e.ttype ≠ EdgeType.ghost))
      if succs.length = 2 then
        match succs.find? (fun e => (intra.analyze_edge e env).isBottom) with
        | none => some (cfg, st)
        | some e =>
          if e.ttype = EdgeType.goto then
            some (cfg, (st.incBranches).addRepl insn [gotoInsn])
          else
            some (cfg, (st.incBranches).addDelete insn)
      else none

/-- The per-block instruction walk of `Transform::apply`: redundant-put
analysis on the environment before the instruction's transfer function,
simplification on the environment after it.  `prev` carries the directly
preceding method item entry. -/
def walkEntries (K : Config) (rf : Nat → Option DexField) (intra : FixpointIterator)
    (wps : WholeProgramState) :
    List Mie → Option Mie → ConstantEnvironment → TState →
    Option (ConstantEnvironment × TState)
  | [], _, env, st => some (env, st)
  | e :: es, prev, env, st =>
    match e with
    | Mie.insn i =>
      let st1 := eliminate_redundant_put K rf env wps i st
      let env1 := intra.analyze_instruction i env
      match simplify_instruction K env1 prev i st1 with
      | none => none
      | some st2 => walkEntries K rf intra wps es (some e) env1 st2
    | _ => walkEntries K rf intra wps es (some e) env st

/-- One iteration of `Transform::apply`'s block loop: skip unreachable blocks,
walk the instructions, then run dead-branch elimination on the block. -/
def processBlock (K : Config) (rf : Nat → Option DexField) (intra : FixpointIterator)
    (wps : WholeProgramState) (acc : Cfg × TState) (bid : Nat) :
    Option (Cfg × TState) :=
  match findBlock acc.1 bid with
  | none => some acc
  | some b =>
    let env := intra.entry_state bid
    if env.isBottom then some acc
    else
      match walkEntries K rf intra wps b.entries none env acc.2 with
      | none => none
      | some r => eliminate_dead_branch K intra r.1 acc.1 b r.2

/-- The traversal phase of `Transform::apply` over the method's blocks. -/
def traverseBlocks (K : Config) (rf : Nat → Option DexField) (intra : FixpointIterator)
    (wps : WholeProgramState) :
    List Nat → Cfg → TState → Option (Cfg × TState)
  | [], cfg, st => some (cfg, st)
  | bid :: bids, cfg, st =>
    match processBlock K rf intra wps (cfg, st) bid with
    | none => none
    | some acc => traverseBlocks K rf intra wps bids acc.1 acc.2

/-- Modelled from the spec: `IRCode::replace_opcode` / `replace_branch`
substitute the given instruction sequence for the unique occurrence of the
original instruction in the method item list (IRCode is outside this
excerpt). -/
def codeReplace (cfg : Cfg) (old : IRInstruction) (news : List IRInstruction) : Cfg :=
  { cfg with blocks := cfg.blocks.map fun b =>
      { b with entries := b.entries.flatMap fun e =>
          match e with
          | Mie.insn i => if i.uid = old.uid then news.map Mie.insn else [e]
          | _ => [e] } }

/-- Modelled from the spec: `IRCode::remove_opcode` deletes the instruction's
entry from the method item list (IRCode is outside this excerpt). -/
def codeRemove (cfg : Cfg) (old : IRInstruction) : Cfg :=
  { cfg with blocks := cfg.blocks.map fun b =>
      { b with entries := b.entries.filter fun e =>
          match e with
          | Mie.insn i => decide (i.uid ≠ old.uid)
          | _ => true } }

def applyRepls : List (IRInstruction × List IRInstruction) → Cfg → Option Cfg
  | [], cfg => some cfg
  | (old, news) :: rest, cfg =>
    if is_branch old.opcode then
      if news.length = 1 then applyRepls rest (codeReplace cfg old news) else none
    else applyRepls rest (codeReplace cfg old news)

/-- `Transform::apply_changes`: replacements first, deletions second; a
multi-instruction replacement for a branch is a fatal assertion. -/
def apply_changes (st : TState) (cfg : Cfg) : Option Cfg :=
  match applyRepls st.replacements cfg with
  | none => none
  | some cfg1 => some (st.deletes.foldl codeRemove cfg1)

/-- `Transform::apply`: the read-only traversal followed by the single batched
mutation pass; returns the rewritten method and the accumulated stats. -/
def Transform.apply (K : Config) (rf : Nat → Option DexField) (intra : FixpointIterator)
    (wps : WholeProgramState) (cfg : Cfg) : Option (Cfg × TState) :=
  match traverseBlocks K rf intra wps (cfg.blocks.map Block.id) cfg TState.init with
  | none => none
  | some (cfg1, st) =>
    match apply_changes st cfg1 with
    | none => none
    | some cfg2 => some (cfg2, st)

/-! ### Derived and spec-side definitions used in the statements -/

/-- The spec's selection of the "existing value" for redundant-store
elimination: the flow-sensitive local environment inside the field's own
class initializer, the whole-program summary otherwise. -/
def existingValueFor (K : Config) (env : ConstantEnvironment) (wps : WholeProgramState)
    (f : DexField) : SignedConstantDomain :=
  if K.class_under_init = some f.cls then env.getField f else wps.get_field_value f

/-- The spec's words for redundant-store elimination: a field store is
redundant iff its field resolves and the stored abstract value is provably
runtime-equal to the existing value. -/
def redundantPutSpec (K : Config) (rf : Nat → Option DexField) (env : ConstantEnvironment)
    (wps : WholeProgramState) (insn : IRInstruction) : Bool :=
  match rf insn.fieldRef with
  | none => false
  | some f => runtimeEquals (existingValueFor K env wps f) (env.getReg (insn.src 0))

/-- The spec's eligibility filter for constant materialization: a
move-result-pseudo following a field/array get or literal division/remainder;
arithmetic-with-literal opcodes always; plain moves only under the
`replace_moves_with_consts` policy flag. -/
def specEligibleForConst (K : Config) (prev : Option Mie) (insn : IRInstruction) : Bool :=
  if is_move_result_pseudo insn.opcode then
    match primaryOf prev with
    | some p => is_sget p.opcode || is_iget p.opcode || is_aget p.opcode ||
                is_div_int_lit p.opcode || is_rem_int_lit p.opcode
    | none => false
  else if is_arith_lit insn.opcode then true
  else if insn.opcode = Opcode.move ∨ insn.opcode = Opcode.move_wide then
    K.replace_moves_with_consts
  else false

/-- The replacement target the spec prescribes: the preceding primary
instruction for a move-result-pseudo, the instruction itself otherwise. -/
def materializeTarget (prev : Option Mie) (insn : IRInstruction) : IRInstruction :=
  if is_move_result_pseudo insn.opcode then (primaryOf prev).getD insn else insn

/-- Modelled from the spec: the block control reaches after `apply_changes`
rewrites a two-way conditional branch.  `IRCode::replace_branch` (outside this
excerpt) keeps the conditional's branch label for the new goto, so a
replacement transfers control to the BRANCH edge's target, while deleting the
conditional falls through to the GOTO edge's target. -/
def rewrittenTarget (succs : List Edge) (replacedByGoto : Bool) : Nat :=
  if replacedByGoto then
    (((succs.find? fun e => decide (e.ttype = EdgeType.branch)).map Edge.target).getD 0)
  else
    (((succs.find? fun e => decide (e.ttype = EdgeType.goto)).map Edge.target).getD 0)

/-- One entry of the first `remove_dead_switch` loop as a pure map: a label of
this switch whose case key cannot match the scrutinee, or that lives in the
default block, becomes a plain fallthrough. -/
def neutralizeMie (eval : SignedConstantDomain) (defId succId uid : Nat) (e : Mie) : Mie :=
  if isSwitchLabel uid e &&
     ((eval.meet (SignedConstantDomain.const (mieKey e))).is_bottom || decide (defId = succId)) then
    Mie.fallthrough
  else e

/-- A label of this switch that stays reachable: key meet is not bottom and
the block is not the switch's default block. -/
def isLiveLabel (eval : SignedConstantDomain) (defId succId uid : Nat) (e : Mie) : Bool :=
  isSwitchLabel uid e &&
  !((eval.meet (SignedConstantDomain.const (mieKey e))).is_bottom || decide (defId = succId))

/-- The first loop of `remove_dead_switch`, described denotationally: each
successor block's entries are neutralized pointwise. -/
def neutralizeCfg (eval : SignedConstantDomain) (defId uid : Nat) : List Nat → Cfg → Cfg
  | [], cfg => cfg
  | s :: ss, cfg =>
    neutralizeCfg eval defId uid ss
      (match findBlock cfg s with
       | none => cfg
       | some b => updateBlock cfg s (b.entries.map (neutralizeMie eval defId s uid)))

/-- Number of reachable (live) labels of this switch inside successor `s`. -/
def blockLiveN (eval : SignedConstantDomain) (defId uid : Nat) (cfg : Cfg) (s : Nat) : Nat :=
  match findBlock cfg s with
  | none => 0
  | some b => (b.entries.filter (isLiveLabel eval defId s uid)).length

/-- Total number of reachable labels of this switch across the successors. -/
def totalLiveN (eval : SignedConstantDomain) (defId uid : Nat) (ss : List Nat) (cfg : Cfg) : Nat :=
  (ss.map (blockLiveN eval defId uid cfg)).sum

/-- The first successor (in iteration order) holding a reachable label. -/
def firstLiveBlock (eval : SignedConstantDomain) (defId uid : Nat) (ss : List Nat) (cfg : Cfg) :
    Option Nat :=
  ss.find? (fun s => decide (0 < blockLiveN eval defId uid cfg s))

/-- The second loop of `remove_dead_switch` applied to the surviving block:
its first remaining label becomes the goto's simple target. -/
def promoteFirstLabel (uid r : Nat) (cfg : Cfg) : Cfg :=
  match findBlock cfg r with
  | none => cfg
  | some b => updateBlock cfg r (rds_retarget uid b.entries false).1

/-- Per-block instruction content of a CFG (block id together with the
instruction sequence, labels and fallthroughs erased). -/
def cfgInsns (cfg : Cfg) : List (Nat × List IRInstruction) :=
  cfg.blocks.map fun b => (b.id, b.entries.filterMap mieInsn)

/-- Every batched branch replacement maps to exactly one instruction (the
shape `apply_changes` asserts). -/
def branchReplsOk (l : List (IRInstruction × List IRInstruction)) : Bool :=
  l.all fun p => !(is_branch p.1.opcode) || decide (p.2.length = 1)

/-- The CFG well-formedness preconditions of the spec: a conditional-branch
block has exactly two non-ghost successor edges; a switch block has exactly
one GOTO (default) edge and only BRANCH edges otherwise. -/
def wfBlock (b : Block) : Bool :=
  match b.lastInsn with
  | none => true
  | some insn =>
    (if is_conditional_branch insn.opcode then
       decide ((b.succs.filter fun e => decide (e.ttype ≠ EdgeType.ghost)).length = 2)
     else true) &&
    (if is_switch insn.opcode then
       decide ((b.succs.filter fun e => decide (e.ttype = EdgeType.goto)).length = 1) &&
       b.succs.all (fun e => decide (e.ttype = EdgeType.goto) || decide (e.ttype = EdgeType.branch))
     else true)

/-! ### Concrete instantiations of the external collaborators for scenarios -/

/-- Example transfer function instantiating the external fixpoint engine's
`analyze_instruction` interface for the scenarios below: a field store writes
the stored register's abstract value into the field component, a
move-result-pseudo materializes the modelled load result `k` into its
destination register, and every other instruction leaves the environment
unchanged. -/
def demoAnalyze (k : Int) (insn : IRInstruction) (env : ConstantEnvironment) : ConstantEnvironment :=
  if is_put insn.opcode then
    { env with fields := fun fr => if fr = insn.fieldRef then env.regs (insn.src 0) else env.fields fr }
  else if is_move_result_pseudo insn.opcode then
    { env with regs := fun r => if r = insn.dest then SignedConstantDomain.const k else env.regs r }
  else env

def envAllTop : ConstantEnvironment :=
  ⟨false, fun _ => SignedConstantDomain.top, fun _ => SignedConstantDomain.top⟩

def demoIntra (k : Int) : FixpointIterator :=
  ⟨fun _ => envAllTop, demoAnalyze k, fun _ env => env⟩

def demoRf : Nat → Option DexField := fun n => if n = 10 then some ⟨10, 3⟩ else none

def demoWps : WholeProgramState := ⟨fun _ => SignedConstantDomain.top⟩

def c9K : Config := ⟨some 3, false, true⟩

def c9env (a b : Int) : ConstantEnvironment :=
  ⟨false,
   fun r => if r = 0 then SignedConstantDomain.const b else SignedConstantDomain.top,
   fun fr => if fr = 10 then SignedConstantDomain.const a else SignedConstantDomain.top⟩

def c9sput : IRInstruction := ⟨100, Opcode.sput, 0, [0], 10, 0⟩

def c9sget : IRInstruction := ⟨200, Opcode.sget, 1, [], 10, 0⟩

def c9pseudo : IRInstruction := ⟨201, Opcode.move_result_pseudo, 1, [], 0, 0⟩

def c4env : ConstantEnvironment :=
  ⟨false,
   fun r => if r = 1 then SignedConstantDomain.const 5 else SignedConstantDomain.top,
   fun _ => SignedConstantDomain.top⟩

def c2intra : FixpointIterator :=
  ⟨fun _ => envAllTop, fun _ env => env,
   fun e env => if e.target = 1 then { env with isBottom := true } else env⟩

def c2insn : IRInstruction := ⟨300, Opcode.if_eq, 0, [0, 1], 0, 0⟩

def c2block : Block := ⟨0, [Mie.insn c2insn], [⟨EdgeType.goto, 1⟩, ⟨EdgeType.branch, 2⟩]⟩

def c2cfg : Cfg := ⟨false, [c2block]⟩

def c3insn : IRInstruction := ⟨400, Opcode.packed_switch, 0, [0], 0, 0⟩

def c3b0 : Block := ⟨0, [Mie.insn c3insn],
  [⟨EdgeType.goto, 4⟩, ⟨EdgeType.branch, 1⟩, ⟨EdgeType.branch, 2⟩, ⟨EdgeType.branch, 3⟩]⟩

def c3b1 : Block := ⟨1, [Mie.target BranchType.multi 400 1, Mie.insn ⟨401, Opcode.nop, 0, [], 0, 0⟩], []⟩

def c3b2 : Block := ⟨2, [Mie.target BranchType.multi 400 2, Mie.insn ⟨402, Opcode.nop, 0, [], 0, 0⟩], []⟩

def c3b3 : Block := ⟨3, [Mie.target BranchType.multi 400 3, Mie.insn ⟨403, Opcode.nop, 0, [], 0, 0⟩], []⟩

def c3b4 : Block := ⟨4, [Mie.insn ⟨404, Opcode.nop, 0, [], 0, 0⟩], []⟩

def c3cfg : Cfg := ⟨false, [c3b0, c3b1, c3b2, c3b3, c3b4]⟩

def c3env : ConstantEnvironment :=
  ⟨false, fun r => if r = 0 then SignedConstantDomain.const 2 else SignedConstantDomain.top,
   fun _ => SignedConstantDomain.top⟩

def c3cfg2 : Cfg := ⟨false,
  [c3b0,
   ⟨1, [Mie.fallthrough, Mie.insn ⟨401, Opcode.nop, 0, [], 0, 0⟩], []⟩,
   ⟨2, [Mie.target BranchType.simple 400 2, Mie.insn ⟨402, Opcode.nop, 0, [], 0, 0⟩], []⟩,
   ⟨3, [Mie.fallthrough, Mie.insn ⟨403, Opcode.nop, 0, [], 0, 0⟩], []⟩,
   c3b4]⟩

def c6intra : FixpointIterator := ⟨fun _ => c3env, fun _ env => env, fun _ env => env⟩

def c7badBlock : Block := ⟨9, [Mie.insn c2insn], [⟨EdgeType.goto, 1⟩]⟩

/-! ### Helper lemmas -/

theorem cond_branch_not_switch (op : Opcode) (h : is_conditional_branch op = true) :
    is_switch op = false := by
  cases op <;> simp_all [is_conditional_branch, is_switch]

/-- Extensional description of `replace_with_const`: when the previous entry is
well-formed for pseudos, the call records exactly the spec-prescribed
replacement, or nothing when the value has no constant-load form. -/
theorem replace_with_const_eq (env : ConstantEnvironment) (prev : Option Mie)
    (insn : IRInstruction) (st : TState)
    (hprev : is_move_result_pseudo insn.opcode = true → (primaryOf prev).isSome = true) :
    replace_with_const env prev insn st =
      some (if (value_to_instruction (env.getReg insn.dest) insn).isEmpty then st
            else (st.addRepl (materializeTarget prev insn)
                    (value_to_instruction (env.getReg insn.dest) insn)).incMat) := by
  unfold replace_with_const
  cases hv : ConstantEnvironment.getReg env insn.dest with
  | bottom => simp [value_to_instruction]
  | top => simp [value_to_instruction]
  | const k =>
    simp only [value_to_instruction, List.length_cons, List.length_nil]
    cases hpseudo : is_move_result_pseudo insn.opcode with
    | false => simp [materializeTarget, hpseudo]
    | true =>
      have hs := hprev hpseudo
      cases hp : primaryOf prev with
      | none => rw [hp] at hs; simp at hs
      | some p => simp [materializeTarget, hpseudo, hp]

/-- C1: Redundant-store elimination.  For every store to a static or instance
field: if the field fails to resolve the instruction is skipped; otherwise the
existing value is the local environment's when `class_under_init` equals the
field's declaring class and the whole-program summary's otherwise, and the
store is scheduled for deletion if and only if the stored abstract value is
provably runtime-equal to that existing value (a provably different store is
left intact, and nothing else in the state changes). -/
theorem c1_redundant_put (K : Config) (rf : Nat → Option DexField)
    (env : ConstantEnvironment) (wps : WholeProgramState)
    (insn : IRInstruction) (st : TState)
    (hput : is_put insn.opcode = true) :
    eliminate_redundant_put K rf env wps insn st =
      if redundantPutSpec K rf env wps insn then st.addDelete insn else st := by
  unfold eliminate_redundant_put redundantPutSpec existingValueFor
  rw [hput]
  simp only [if_true]
  cases h : rf insn.fieldRef with
  | none => simp
  | some f => simp

/-- Witness for C1: a resolved static field whose local (class-under-init)
value is the constant 7 receives a store of 7; the store is scheduled for
deletion. -/
theorem c1_redundant_put_witness :
    is_put c9sput.opcode = true ∧
    eliminate_redundant_put c9K demoRf (c9env 7 7) demoWps c9sput TState.init =
      TState.init.addDelete c9sput :=
  ⟨by decide,
   (c1_redundant_put c9K demoRf (c9env 7 7) demoWps c9sput TState.init (by decide)).trans
     (by decide)⟩


/-- C4: Constant materialization eligibility.  `simplify_instruction` considers
an instruction for replacement exactly when the spec's eligibility filter holds
(a move-result-pseudo only after a static/instance field get, array get, or
literal division/remainder; arithmetic-with-literal opcodes always; plain
register moves only under the `replace_moves_with_consts` flag); the
replacement is recorded only when the destination register's abstract value
converts to a constant-load sequence, otherwise the state is untouched; and
the recorded target for a move-result-pseudo is the preceding primary
instruction, not the pseudo itself. -/
theorem c4_simplify_instruction (K : Config) (env : ConstantEnvironment)
    (prev : Option Mie) (insn : IRInstruction) (st : TState)
    (hprev : is_move_result_pseudo insn.opcode = true → (primaryOf prev).isSome = true) :
    simplify_instruction K env prev insn st =
      some (if specEligibleForConst K prev insn then
              (if (value_to_instruction (env.getReg insn.dest) insn).isEmpty then st
               else (st.addRepl (materializeTarget prev insn)
                       (value_to_instruction (env.getReg insn.dest) insn)).incMat)
            else st) := by
  have hrwc := replace_with_const_eq env prev insn st hprev
  obtain ⟨u, op, d, srcs, fr, lit⟩ := insn
  cases op <;>
    simp only [simplify_instruction, specEligibleForConst, is_move_result_pseudo,
      is_arith_lit] at hrwc hprev ⊢ <;>
    try solve | simp | (rw [hrwc]; simp)
  case move =>
    cases hk : K.replace_moves_with_consts <;> rw [hrwc] <;> simp [hk]
  case move_wide =>
    cases hk : K.replace_moves_with_consts <;> rw [hrwc] <;> simp [hk]
  all_goals
    cases hp : primaryOf prev with
    | none =>
      have hps := hprev (by simp)
      rw [hp] at hps
      simp at hps
    | some p =>
      simp only [materializeTarget, is_move_result_pseudo, hp, Option.getD_some, if_true] at hrwc ⊢
      cases helig : (is_sget p.opcode || is_iget p.opcode || is_aget p.opcode ||
          is_div_int_lit p.opcode || is_rem_int_lit p.opcode) <;>
        solve | simp | (rw [hrwc]; simp)

/-- Witness for C4: a move-result-pseudo directly after an `sget`, with the
destination register known to be the constant 5, is replaced by a const-load
recorded against the `sget` (the preceding primary instruction). -/
theorem c4_simplify_instruction_witness :
    (is_move_result_pseudo c9pseudo.opcode = true →
       (primaryOf (some (Mie.insn c9sget))).isSome = true) ∧
    simplify_instruction c9K c4env (some (Mie.insn c9sget)) c9pseudo TState.init =
      some ((TState.init.addRepl c9sget [⟨0, Opcode.const, 1, [], 0, 5⟩]).incMat) :=
  ⟨fun _ => by decide,
   (c4_simplify_instruction c9K c4env (some (Mie.insn c9sget)) c9pseudo TState.init
      (fun _ => by decide)).trans (by decide)⟩

/-- C10: In every invocation of `replace_with_const`, either the destination
register's abstract value converts to a non-empty replacement sequence, in
which case exactly one replacement entry is recorded and `materialized_consts`
is incremented by exactly one, or nothing is recorded and the counter is
unchanged; the counter only ever increases, and its change always equals the
number of replacement entries scheduled by the call. -/
theorem c10_replace_with_const (env : ConstantEnvironment) (prev : Option Mie)
    (insn : IRInstruction) (st st' : TState)
    (hprev : is_move_result_pseudo insn.opcode = true → (primaryOf prev).isSome = true)
    (hres : replace_with_const env prev insn st = some st') :
    ((value_to_instruction (env.getReg insn.dest) insn ≠ [] ∧
      st'.replacements.length = st.replacements.length + 1 ∧
      st'.materialized_consts = st.materialized_consts + 1 ∧
      st'.deletes = st.deletes ∧ st'.branches_removed = st.branches_removed) ∨
     (value_to_instruction (env.getReg insn.dest) insn = [] ∧ st' = st)) ∧
    st.materialized_consts ≤ st'.materialized_consts ∧
    st'.replacements.length + st.materialized_consts =
      st.replacements.length + st'.materialized_consts := by
  rw [replace_with_const_eq env prev insn st hprev] at hres
  cases hval : ConstantEnvironment.getReg env insn.dest <;> rw [hval] at hres <;>
    simp only [value_to_instruction, List.isEmpty_nil, List.isEmpty_cons, if_true,
      Bool.false_eq_true, if_false, Option.some.injEq] at hres <;>
    subst hres
  · exact ⟨Or.inr ⟨by simp [value_to_instruction, hval], rfl⟩, le_refl _, rfl⟩
  · exact ⟨Or.inr ⟨by simp [value_to_instruction, hval], rfl⟩, le_refl _, rfl⟩
  · refine ⟨Or.inl ⟨by simp [value_to_instruction, hval], ?_, ?_, rfl, rfl⟩, ?_, ?_⟩ <;>
      simp [TState.addRepl, TState.incMat] <;> omega

/-- Witness for C10: materializing the constant 5 into the pseudo's
destination records one replacement and bumps the counter by one. -/
theorem c10_replace_with_const_witness :
    ((value_to_instruction (c4env.getReg c9pseudo.dest) c9pseudo ≠ [] ∧
      ((TState.init.addRepl c9sget [⟨0, Opcode.const, 1, [], 0, 5⟩]).incMat).replacements.length =
        TState.init.replacements.length + 1 ∧
      ((TState.init.addRepl c9sget [⟨0, Opcode.const, 1, [], 0, 5⟩]).incMat).materialized_consts =
        TState.init.materialized_consts + 1 ∧
      ((TState.init.addRepl c9sget [⟨0, Opcode.const, 1, [], 0, 5⟩]).incMat).deletes =
        TState.init.deletes ∧
      ((TState.init.addRepl c9sget [⟨0, Opcode.const, 1, [], 0, 5⟩]).incMat).branches_removed =
        TState.init.branches_removed) ∨
     (value_to_instruction (c4env.getReg c9pseudo.dest) c9pseudo = [] ∧
      (TState.init.addRepl c9sget [⟨0, Opcode.const, 1, [], 0, 5⟩]).incMat = TState.init)) ∧
    TState.init.materialized_consts ≤
      ((TState.init.addRepl c9sget [⟨0, Opcode.const, 1, [], 0, 5⟩]).incMat).materialized_consts ∧
    ((TState.init.addRepl c9sget [⟨0, Opcode.const, 1, [], 0, 5⟩]).incMat).replacements.length +
        TState.init.materialized_consts =
      TState.init.replacements.length +
        ((TState.init.addRepl c9sget [⟨0, Opcode.const, 1, [], 0, 5⟩]).incMat).materialized_consts :=
  c10_replace_with_const c4env (some (Mie.insn c9sget)) c9pseudo TState.init
    ((TState.init.addRepl c9sget [⟨0, Opcode.const, 1, [], 0, 5⟩]).incMat)
    (fun _ => by decide) (by decide)

/-- C5: `Transform::apply`'s traversal skips every block whose fixpoint entry
environment is bottom: traversing the block list is the same as traversing
only its non-bottom-entry blocks, so an unreachable block contributes no
replacements, no deletions and no CFG change. -/
theorem c5_bottom_blocks_skipped (K : Config) (rf : Nat → Option DexField)
    (intra : FixpointIterator) (wps : WholeProgramState)
    (ids : List Nat) (cfg : Cfg) (st : TState) :
    traverseBlocks K rf intra wps ids cfg st =
      traverseBlocks K rf intra wps
        (ids.filter fun b => !(intra.entry_state b).isBottom) cfg st := by
  induction ids generalizing cfg st with
  | nil => rfl
  | cons bid rest ih =>
    cases hb : (intra.entry_state bid).isBottom with
    | true =>
      have hpb : processBlock K rf intra wps (cfg, st) bid = some (cfg, st) := by
        unfold processBlock
        cases hf : findBlock cfg bid <;> simp [hb]
      simp only [traverseBlocks, hpb, List.filter_cons, hb, Bool.not_true, if_false,
        Bool.false_eq_true]
      exact ih cfg st
    | false =>
      simp only [traverseBlocks, List.filter_cons, hb, Bool.not_false, if_true]
      cases hpb : processBlock K rf intra wps (cfg, st) bid <;>
        simp [traverseBlocks, hpb, ih]

/-- C9: Within the per-block instruction walk, `eliminate_redundant_put` sees
the environment from before the current instruction's transfer function while
`simplify_instruction` sees the environment after it.  Concretely: (1) a store
of register value `b` to a field currently holding `a ≠ b` is NOT scheduled
for deletion by the walk, although (2) judging it against the post-store
environment would schedule it (so the walk provably uses the pre-state); and
(3) a move-result-pseudo whose destination becomes the constant `k` only
through its own transfer function still gets a constant replacement recorded
against the preceding `sget` (so simplification provably uses the
post-state). -/
theorem c9_walk_env_ordering (a b k : Int) (hab : a ≠ b) :
    (walkEntries c9K demoRf (demoIntra k) demoWps [Mie.insn c9sput] none (c9env a b)
        TState.init = some (demoAnalyze k c9sput (c9env a b), TState.init)) ∧
    (eliminate_redundant_put c9K demoRf (demoAnalyze k c9sput (c9env a b)) demoWps c9sput
        TState.init = TState.init.addDelete c9sput) ∧
    (walkEntries c9K demoRf (demoIntra k) demoWps [Mie.insn c9sget, Mie.insn c9pseudo] none
        envAllTop TState.init =
      some (demoAnalyze k c9pseudo envAllTop,
            { replacements := [(c9sget, [⟨0, Opcode.const, 1, [], 0, k⟩])],
              deletes := [], materialized_consts := 1, branches_removed := 0 })) := by
  refine ⟨?_, ?_, ?_⟩
  · simp [walkEntries, eliminate_redundant_put, simplify_instruction, demoIntra, demoAnalyze,
      c9K, demoRf, c9env, c9sput, demoWps, is_put, is_arith_lit, runtimeEquals,
      ConstantEnvironment.getReg, ConstantEnvironment.getField, IRInstruction.src, hab]
  · simp [eliminate_redundant_put, demoAnalyze, c9K, demoRf, c9env, c9sput, demoWps, is_put,
      runtimeEquals, ConstantEnvironment.getReg, ConstantEnvironment.getField,
      IRInstruction.src]
  · simp [walkEntries, eliminate_redundant_put, simplify_instruction, replace_with_const,
      value_to_instruction, demoIntra, demoAnalyze, c9K, demoRf, c9sget, c9pseudo, envAllTop,
      demoWps, is_put, is_arith_lit, is_move_result_pseudo, is_sget, primaryOf,
      ConstantEnvironment.getReg, IRInstruction.src, TState.addRepl, TState.incMat,
      TState.init]

/-- Witness for C9 at `a = 0`, `b = 1`, `k = 5`. -/
theorem c9_walk_env_ordering_witness :
    (0 : Int) ≠ 1 ∧
    ((walkEntries c9K demoRf (demoIntra 5) demoWps [Mie.insn c9sput] none (c9env 0 1)
        TState.init = some (demoAnalyze 5 c9sput (c9env 0 1), TState.init)) ∧
     (eliminate_redundant_put c9K demoRf (demoAnalyze 5 c9sput (c9env 0 1)) demoWps c9sput
        TState.init = TState.init.addDelete c9sput) ∧
     (walkEntries c9K demoRf (demoIntra 5) demoWps [Mie.insn c9sget, Mie.insn c9pseudo] none
        envAllTop TState.init =
       some (demoAnalyze 5 c9pseudo envAllTop,
             { replacements := [(c9sget, [⟨0, Opcode.const, 1, [], 0, 5⟩])],
               deletes := [], materialized_consts := 1, branches_removed := 0 }))) :=
  ⟨by decide, c9_walk_env_ordering 0 1 5 (by decide)⟩

/-- C2: Dead-branch elimination.  For a block ending in a conditional branch
with exactly two non-ghost successor edges, when the fixpoint engine projects
bottom along the first-found edge `ed`, the branch is replaced by an
unconditional goto when `ed` is the fallthrough (GOTO) edge and deleted
outright otherwise, `branches_removed` is incremented by one, only that single
action is scheduled, and the rewritten block transfers control exactly to the
surviving edge's target. -/
theorem c2_eliminate_dead_branch (K : Config) (intra : FixpointIterator)
    (env : ConstantEnvironment) (cfg : Cfg) (block : Block) (st : TState)
    (insn : IRInstruction) (e1 e2 ed sv : Edge)
    (hlast : block.lastInsn = some insn)
    (hcond : is_conditional_branch insn.opcode = true)
    (hsuccs : block.succs.filter (fun e => decide (e.ttype ≠ EdgeType.ghost)) = [e1, e2])
    (htypes : (e1.ttype = EdgeType.goto ∧ e2.ttype = EdgeType.branch) ∨
              (e1.ttype = EdgeType.branch ∧ e2.ttype = EdgeType.goto))
    (hfind : [e1, e2].find? (fun e => (intra.analyze_edge e env).isBottom) = some ed)
    (hsv : (ed = e1 ∧ sv = e2) ∨ (ed = e2 ∧ sv = e1)) :
    eliminate_dead_branch K intra env cfg block st =
      some (cfg, if ed.ttype = EdgeType.goto then (st.incBranches).addRepl insn [gotoInsn]
                 else (st.incBranches).addDelete insn) ∧
    (intra.analyze_edge ed env).isBottom = true ∧
    rewrittenTarget [e1, e2] (decide (ed.ttype = EdgeType.goto)) = sv.target := by
  have hns : is_switch insn.opcode = false := cond_branch_not_switch insn.opcode hcond
  have hbot : (intra.analyze_edge ed env).isBottom = true := by
    have h := List.find?_some hfind
    simpa using h
  refine ⟨?_, hbot, ?_⟩
  · unfold eliminate_dead_branch
    simp only [hlast, hns, hcond, Bool.false_eq_true, Bool.not_true, if_false, hsuccs, hfind]
    simp
    split <;> rfl
  · rcases hsv with ⟨he, hs⟩ | ⟨he, hs⟩ <;> subst he <;> subst hs <;>
      rcases htypes with ⟨h1, h2⟩ | ⟨h1, h2⟩ <;>
      simp [rewrittenTarget, h1, h2]

/-- Witness for C2: an `if-eq` block whose fallthrough (GOTO) edge projects to
bottom is replaced by a goto, and control flows to the branch edge's target
(block 2). -/
theorem c2_eliminate_dead_branch_witness :
    eliminate_dead_branch c9K c2intra envAllTop c2cfg c2block TState.init =
      some (c2cfg,
            if (Edge.mk EdgeType.goto 1).ttype = EdgeType.goto then
              (TState.init.incBranches).addRepl c2insn [gotoInsn]
            else (TState.init.incBranches).addDelete c2insn) ∧
    (c2intra.analyze_edge ⟨EdgeType.goto, 1⟩ envAllTop).isBottom = true ∧
    rewrittenTarget [⟨EdgeType.goto, 1⟩, ⟨EdgeType.branch, 2⟩]
        (decide ((Edge.mk EdgeType.goto 1).ttype = EdgeType.goto)) =
      (Edge.mk EdgeType.branch 2).target :=
  c2_eliminate_dead_branch c9K c2intra envAllTop c2cfg c2block TState.init c2insn
    ⟨EdgeType.goto, 1⟩ ⟨EdgeType.branch, 2⟩ ⟨EdgeType.goto, 1⟩ ⟨EdgeType.branch, 2⟩
    (by decide) (by decide) (by decide) (Or.inl ⟨rfl, rfl⟩) (by decide) (Or.inl ⟨rfl, rfl⟩)

theorem find?_congr_list {α : Type} (l : List α) (p q : α → Bool)
    (h : ∀ a ∈ l, p a = q a) : l.find? p = l.find? q := by
  induction l with
  | nil => rfl
  | cons a l ih =>
    have ha := h a (List.mem_cons_self a l)
    have ih' := ih fun a ha' => h a (List.mem_cons_of_mem _ ha')
    cases hp : p a with
    | true =>
      have hq : q a = true := ha ▸ hp
      simp only [List.find?, hp, hq]
    | false =>
      have hq : q a = false := ha ▸ hp
      simp only [List.find?, hp, hq, ih']

theorem find?_map_update_ne (bs : List Block) (s s' : Nat) (es : List Mie) (h : s' ≠ s) :
    (bs.map fun b => if b.id = s then { b with entries := es } else b).find?
        (fun b => decide (b.id = s')) = bs.find? (fun b => decide (b.id = s')) := by
  induction bs with
  | nil => rfl
  | cons b bs ih =>
    by_cases hb : b.id = s
    · have hd : decide (b.id = s') = false := by
        simp only [decide_eq_false_iff_not]
        intro hc
        exact h ((hc.symm.trans hb))
      simp only [List.map_cons, if_pos hb, List.find?, hd, ih]
    · cases hd : decide (b.id = s') with
      | true => simp only [List.map_cons, if_neg hb, List.find?, hd]
      | false => simp only [List.map_cons, if_neg hb, List.find?, hd, ih]

theorem find?_map_update_eq (bs : List Block) (s : Nat) (es : List Mie) :
    (bs.map fun b => if b.id = s then { b with entries := es } else b).find?
        (fun b => decide (b.id = s)) =
      (bs.find? (fun b => decide (b.id = s))).map (fun b => { b with entries := es }) := by
  induction bs with
  | nil => rfl
  | cons b bs ih =>
    by_cases hb : b.id = s
    · have hd : decide (b.id = s) = true := decide_eq_true hb
      simp only [List.map_cons, if_pos hb, List.find?, hd, Option.map_some']
    · have hd : decide (b.id = s) = false := decide_eq_false hb
      simp only [List.map_cons, if_neg hb, List.find?, hd, ih]

theorem findBlock_update_ne (cfg : Cfg) (s s' : Nat) (es : List Mie) (h : s' ≠ s) :
    findBlock (updateBlock cfg s es) s' = findBlock cfg s' :=
  find?_map_update_ne cfg.blocks s s' es h

theorem findBlock_update_eq (cfg : Cfg) (s : Nat) (es : List Mie) :
    findBlock (updateBlock cfg s es) s =
      (findBlock cfg s).map (fun b => { b with entries := es }) :=
  find?_map_update_eq cfg.blocks s es

theorem updateBlock_ids (cfg : Cfg) (s : Nat) (es : List Mie) :
    (updateBlock cfg s es).blocks.map Block.id = cfg.blocks.map Block.id := by
  unfold updateBlock
  simp only [List.map_map]
  exact List.map_congr_left fun b _ => by by_cases hb : b.id = s <;> simp [hb]

theorem updateBlock_editable (cfg : Cfg) (s : Nat) (es : List Mie) :
    (updateBlock cfg s es).editable = cfg.editable := rfl

theorem nat_succ_le_one (n : Nat) : decide (n + 1 ≤ 1) = decide (n = 0) := by
  cases n <;> simp

theorem rds_scan_entries_eq (eval : SignedConstantDomain) (defId succId uid : Nat)
    (es : List Mie) (reach : Option Nat) (so : Bool) :
    rds_scan_entries eval defId succId uid es reach so =
      (es.map (neutralizeMie eval defId succId uid),
       (match reach with
        | some x => some x
        | none => if (es.filter (isLiveLabel eval defId succId uid)).length = 0 then none
                  else some succId),
       so && (match reach with
              | some _ => decide ((es.filter (isLiveLabel eval defId succId uid)).length = 0)
              | none => decide ((es.filter (isLiveLabel eval defId succId uid)).length ≤ 1))) := by
  induction es generalizing reach so with
  | nil => cases reach <;> simp [rds_scan_entries]
  | cons e es ih =>
    by_cases hl : isSwitchLabel uid e = true
    · by_cases hc : ((eval.meet (SignedConstantDomain.const (mieKey e))).is_bottom
          || decide (defId = succId)) = true
      · have hnl : isLiveLabel eval defId succId uid e = false := by
          simp [isLiveLabel, hl, hc]
        have hne : neutralizeMie eval defId succId uid e = Mie.fallthrough := by
          simp [neutralizeMie, hl, hc]
        simp only [rds_scan_entries, hl, hc, if_true, List.map_cons, hne, List.filter_cons, hnl,
          Bool.false_eq_true, if_false, ih]
      · have hc' : ((eval.meet (SignedConstantDomain.const (mieKey e))).is_bottom
            || decide (defId = succId)) = false := by simpa using hc
        have hnl : isLiveLabel eval defId succId uid e = true := by
          simp [isLiveLabel, hl, hc']
        have hne : neutralizeMie eval defId succId uid e = e := by
          simp [neutralizeMie, hl, hc]
        cases reach with
        | some x =>
          simp only [rds_scan_entries, hl, hc, if_true, Bool.false_eq_true, if_false,
            List.map_cons, hne, List.filter_cons, hnl, ih, List.length_cons, Bool.false_and,
            Bool.and_false]
          simp
        | none =>
          simp only [rds_scan_entries, hl, hc, if_true, Bool.false_eq_true, if_false,
            List.map_cons, hne, List.filter_cons, hnl, ih, List.length_cons, nat_succ_le_one]
          simp
    · have hnl : isLiveLabel eval defId succId uid e = false := by
        simp [isLiveLabel, hl]
      have hne : neutralizeMie eval defId succId uid e = e := by
        simp [neutralizeMie, hl]
      simp only [rds_scan_entries, hl, Bool.false_eq_true, if_false, List.map_cons, hne,
        List.filter_cons, hnl, ih]

theorem decide_add_eq_zero (a b : Nat) :
    decide (a + b = 0) = (decide (a = 0) && decide (b = 0)) := by
  by_cases ha : a = 0
  · subst ha; simp
  · have hb : ¬(a + b = 0) := by omega
    simp [ha, hb]

theorem decide_add_le_one_pos (a b : Nat) (h : 1 ≤ a) :
    decide (a + b ≤ 1) = (decide (a ≤ 1) && decide (b = 0)) := by
  by_cases h1 : a ≤ 1 <;> by_cases h2 : b = 0
  · have hs : a + b ≤ 1 := by omega
    simp [h1, h2, hs]
  · have hs : ¬(a + b ≤ 1) := by omega
    simp [h1, h2, hs]
  · have hs : ¬(a + b ≤ 1) := by omega
    simp [h1, h2, hs]
  · have hs : ¬(a + b ≤ 1) := by omega
    simp [h1, h2, hs]

theorem rds_scan_succs_eq (eval : SignedConstantDomain) (defId uid : Nat)
    (ss : List Nat) (cfg : Cfg) (reach : Option Nat) (so : Bool)
    (hnd : ss.Nodup) :
    rds_scan_succs eval defId uid ss cfg reach so =
      (neutralizeCfg eval defId uid ss cfg,
       (match reach with
        | some x => some x
        | none => firstLiveBlock eval defId uid ss cfg),
       so && (match reach with
              | some _ => decide (totalLiveN eval defId uid ss cfg = 0)
              | none => decide (totalLiveN eval defId uid ss cfg ≤ 1))) := by
  induction ss generalizing cfg reach so with
  | nil =>
    cases reach <;> simp [rds_scan_succs, neutralizeCfg, firstLiveBlock, totalLiveN]
  | cons s ss ih =>
    obtain ⟨hs, hnd0⟩ := List.nodup_cons.mp hnd
    cases hf : findBlock cfg s with
    | none =>
      have hbl : blockLiveN eval defId uid cfg s = 0 := by simp [blockLiveN, hf]
      have hcfg : neutralizeCfg eval defId uid (s :: ss) cfg =
          neutralizeCfg eval defId uid ss cfg := by
        simp [neutralizeCfg, hf]
      have hfl : firstLiveBlock eval defId uid (s :: ss) cfg =
          firstLiveBlock eval defId uid ss cfg := by
        have hp : decide (0 < blockLiveN eval defId uid cfg s) = false := by simp [hbl]
        simp only [firstLiveBlock, List.find?, hp]
      have htl : totalLiveN eval defId uid (s :: ss) cfg =
          totalLiveN eval defId uid ss cfg := by
        simp only [totalLiveN, List.map_cons, List.sum_cons, hbl, Nat.zero_add]
      rw [hcfg, hfl, htl]
      simp only [rds_scan_succs, hf]
      exact ih cfg reach so hnd0
    | some b =>
      set cfg1 := updateBlock cfg s (b.entries.map (neutralizeMie eval defId s uid)) with hc1
      set n := (b.entries.filter (isLiveLabel eval defId s uid)).length with hn
      have hbl : blockLiveN eval defId uid cfg s = n := by
        simp [blockLiveN, hf, hn]
      have hblc : ∀ x ∈ ss, blockLiveN eval defId uid cfg1 x =
          blockLiveN eval defId uid cfg x := by
        intro x hmem
        unfold blockLiveN
        rw [hc1, findBlock_update_ne cfg s x _ (fun heq => hs (heq ▸ hmem))]
      have hfl : firstLiveBlock eval defId uid ss cfg1 =
          firstLiveBlock eval defId uid ss cfg := by
        unfold firstLiveBlock
        exact find?_congr_list ss _ _ (fun x hmem => by rw [hblc x hmem])
      have htl : totalLiveN eval defId uid ss cfg1 =
          totalLiveN eval defId uid ss cfg := by
        unfold totalLiveN
        rw [List.map_congr_left (fun x hmem => hblc x hmem)]
      have hcfg : neutralizeCfg eval defId uid (s :: ss) cfg =
          neutralizeCfg eval defId uid ss cfg1 := by
        rw [hc1]
        simp [neutralizeCfg, hf]
      rw [hcfg]
      simp only [rds_scan_succs, hf, rds_scan_entries_eq, ← hc1, ← hn]
      rw [ih cfg1 _ _ hnd0]
      simp only [Prod.mk.injEq]
      cases reach with
      | some x =>
        refine ⟨?_, ?_, ?_⟩
        · trivial
        · rfl
        show ((so && decide (n = 0)) && decide (totalLiveN eval defId uid ss cfg1 = 0)) =
             (so && decide (totalLiveN eval defId uid (s :: ss) cfg = 0))
        rw [htl]
        simp only [totalLiveN, List.map_cons, List.sum_cons, hbl, decide_add_eq_zero,
          Bool.and_assoc]
      | none =>
        by_cases hz : n = 0
        · have hp : decide (0 < blockLiveN eval defId uid cfg s) = false := by
            simp [hbl, hz]
          refine ⟨?_, ?_, ?_⟩
          · trivial
          · rw [if_pos hz]
            show firstLiveBlock eval defId uid ss cfg1 =
                 firstLiveBlock eval defId uid (s :: ss) cfg
            rw [hfl]
            simp only [firstLiveBlock, List.find?, hp]
          · rw [if_pos hz]
            show ((so && decide (n ≤ 1)) && decide (totalLiveN eval defId uid ss cfg1 ≤ 1)) =
                 (so && decide (totalLiveN eval defId uid (s :: ss) cfg ≤ 1))
            rw [htl]
            simp only [totalLiveN, List.map_cons, List.sum_cons, hbl, hz, Nat.zero_add]
            simp
        · have hz1 : 1 ≤ n := by omega
          have hp : decide (0 < blockLiveN eval defId uid cfg s) = true := by
            simp only [hbl, decide_eq_true_eq]
            omega
          refine ⟨?_, ?_, ?_⟩
          · trivial
          · rw [if_neg hz]
            show some s = firstLiveBlock eval defId uid (s :: ss) cfg
            simp only [firstLiveBlock, List.find?, hp]
          · rw [if_neg hz]
            show ((so && decide (n ≤ 1)) && decide (totalLiveN eval defId uid ss cfg1 = 0)) =
                 (so && decide (totalLiveN eval defId uid (s :: ss) cfg ≤ 1))
            rw [htl]
            simp only [totalLiveN, List.map_cons, List.sum_cons, hbl,
              decide_add_le_one_pos _ _ hz1, Bool.and_assoc]

theorem findBlock_neutralizeCfg_not_mem (eval : SignedConstantDomain) (defId uid : Nat)
    (ss : List Nat) (cfg : Cfg) (r : Nat) (hr : r ∉ ss) :
    findBlock (neutralizeCfg eval defId uid ss cfg) r = findBlock cfg r := by
  induction ss generalizing cfg with
  | nil => rfl
  | cons s ss ih =>
    have hns : r ∉ ss := fun h => hr (List.mem_cons_of_mem _ h)
    have hrs : r ≠ s := fun h => hr (h ▸ List.mem_cons_self s ss)
    cases hf : findBlock cfg s with
    | none =>
      simp only [neutralizeCfg, hf]
      exact ih _ hns
    | some b =>
      simp only [neutralizeCfg, hf]
      rw [ih _ hns, findBlock_update_ne cfg s r _ hrs]

theorem findBlock_neutralizeCfg_mem (eval : SignedConstantDomain) (defId uid : Nat)
    (ss : List Nat) (cfg : Cfg) (r : Nat) (hnd : ss.Nodup) (hr : r ∈ ss) :
    findBlock (neutralizeCfg eval defId uid ss cfg) r =
      (findBlock cfg r).map
        (fun b => { b with entries := b.entries.map (neutralizeMie eval defId r uid) }) := by
  induction ss generalizing cfg with
  | nil => cases hr
  | cons s ss ih =>
    obtain ⟨hs, hnd0⟩ := List.nodup_cons.mp hnd
    rcases List.mem_cons.mp hr with heq | hmem
    · subst heq
      cases hf : findBlock cfg r with
      | none =>
        simp only [neutralizeCfg, hf]
        rw [findBlock_neutralizeCfg_not_mem eval defId uid ss cfg r hs, hf]
        rfl
      | some b =>
        simp only [neutralizeCfg, hf]
        rw [findBlock_neutralizeCfg_not_mem eval defId uid ss _ r hs, findBlock_update_eq, hf]
        rfl
    · have hrs : r ≠ s := fun h => hs (h ▸ hmem)
      cases hf : findBlock cfg s with
      | none =>
        simp only [neutralizeCfg, hf]
        exact ih _ hnd0 hmem
      | some b =>
        simp only [neutralizeCfg, hf]
        rw [ih _ hnd0 hmem, findBlock_update_ne cfg s r _ hrs]

theorem rds_retarget_changed (uid : Nat) (es : List Mie) (c : Bool) :
    (rds_retarget uid es c).2 = (c || es.any (isSwitchLabel uid)) := by
  induction es generalizing c with
  | nil => simp [rds_retarget]
  | cons e es ih =>
    by_cases hl : isSwitchLabel uid e = true
    · cases c <;> simp [rds_retarget, hl, ih]
    · have hl' : isSwitchLabel uid e = false := by simpa using hl
      simp [rds_retarget, hl', ih]

theorem neutralized_any_label (eval : SignedConstantDomain) (defId r uid : Nat)
    (es : List Mie) (h : 0 < (es.filter (isLiveLabel eval defId r uid)).length) :
    (es.map (neutralizeMie eval defId r uid)).any (isSwitchLabel uid) = true := by
  obtain ⟨e, hmem⟩ := List.exists_mem_of_length_pos h
  have he := List.mem_filter.mp hmem
  have hlive := he.2
  simp only [isLiveLabel, Bool.and_eq_true, Bool.not_eq_true'] at hlive
  have hne : neutralizeMie eval defId r uid e = e := by
    simp [neutralizeMie, hlive.1, hlive.2]
  refine List.any_eq_true.mpr ⟨neutralizeMie eval defId r uid e, List.mem_map_of_mem _ he.1, ?_⟩
  rw [hne]
  exact hlive.1

theorem firstLive_none_of_total_zero (eval : SignedConstantDomain) (defId uid : Nat)
    (ss : List Nat) (cfg : Cfg) (h : totalLiveN eval defId uid ss cfg = 0) :
    firstLiveBlock eval defId uid ss cfg = none := by
  induction ss with
  | nil => rfl
  | cons s ss ih =>
    simp only [totalLiveN, List.map_cons, List.sum_cons] at h
    have h1 : blockLiveN eval defId uid cfg s = 0 := by omega
    have h2 : totalLiveN eval defId uid ss cfg = 0 := by
      simp only [totalLiveN]
      omega
    have hp : decide (0 < blockLiveN eval defId uid cfg s) = false := by simp [h1]
    simp only [firstLiveBlock, List.find?, hp]
    exact ih h2

/-- C3: Dead-switch elimination.  With the `remove_dead_switch` flag set, a
non-editable CFG, a switch whose scrutinee is not top, and a well-formed
default edge: every label of the switch whose key's meet with the scrutinee is
bottom, or whose block is the default block, is neutralized into a plain
fallthrough (the `neutralizeCfg` description); then if zero reachable labels
remain the switch instruction is scheduled for deletion with one
`branches_removed` increment, if exactly one remains the switch is replaced by
a single goto to that label's block (whose label is promoted to a simple
branch target) with one `branches_removed` increment, and if two or more
remain the switch instruction is left untouched and no counter changes. -/
theorem c3_remove_dead_switch (K : Config) (env : ConstantEnvironment)
    (cfg : Cfg) (block : Block) (st : TState) (insn : IRInstruction) (defId : Nat)
    (cfg2 : Cfg) (st2 : TState)
    (hflag : K.remove_dead_switch = true)
    (hedit : cfg.editable = false)
    (hlast : block.lastInsn = some insn)
    (hsw : is_switch insn.opcode = true)
    (hdef : findDefault block.succs none = some (some defId))
    (htop : (env.getReg (insn.src 0)).is_top = false)
    (hres : remove_dead_switch K env cfg block st = some (cfg2, st2)) :
    (totalLiveN (env.getReg (insn.src 0)) defId insn.uid
        ((block.succs.map Edge.target).dedup) cfg = 0 →
      cfg2 = neutralizeCfg (env.getReg (insn.src 0)) defId insn.uid
        ((block.succs.map Edge.target).dedup) cfg ∧
      st2 = (st.incBranches).addDelete insn) ∧
    (∀ r, totalLiveN (env.getReg (insn.src 0)) defId insn.uid
        ((block.succs.map Edge.target).dedup) cfg = 1 →
      firstLiveBlock (env.getReg (insn.src 0)) defId insn.uid
        ((block.succs.map Edge.target).dedup) cfg = some r →
      cfg2 = promoteFirstLabel insn.uid r
        (neutralizeCfg (env.getReg (insn.src 0)) defId insn.uid
          ((block.succs.map Edge.target).dedup) cfg) ∧
      st2 = (st.incBranches).addRepl insn [gotoInsn]) ∧
    (2 ≤ totalLiveN (env.getReg (insn.src 0)) defId insn.uid
        ((block.succs.map Edge.target).dedup) cfg →
      cfg2 = neutralizeCfg (env.getReg (insn.src 0)) defId insn.uid
        ((block.succs.map Edge.target).dedup) cfg ∧
      st2 = st) := by
  have hnd : ((block.succs.map Edge.target).dedup).Nodup :=
    List.nodup_dedup (block.succs.map Edge.target)
  set eval := env.getReg (insn.src 0) with he
  set ss := (block.succs.map Edge.target).dedup with hss
  simp only [remove_dead_switch, hflag, hedit, hlast, hsw, hdef, Bool.not_true,
    Bool.false_eq_true, if_false, ← he, ← hss, htop, Bool.not_false] at hres
  rw [rds_scan_succs_eq eval defId insn.uid ss cfg none true hnd] at hres
  simp only [Bool.true_and] at hres
  refine ⟨?_, ?_, ?_⟩
  · intro h0
    have hfn := firstLive_none_of_total_zero eval defId insn.uid ss cfg h0
    rw [h0, hfn] at hres
    simp only [Nat.zero_le, decide_true_eq_true, Bool.not_true, Bool.false_eq_true,
      if_false, Option.some.injEq, Prod.mk.injEq] at hres
    exact ⟨hres.1.symm, hres.2.symm⟩
  · intro r h1 hfr
    have hrmem : r ∈ ss := List.mem_of_find?_eq_some hfr
    have hbpos : 0 < blockLiveN eval defId insn.uid cfg r := by
      have := List.find?_some hfr
      simpa using this
    obtain ⟨b, hfb⟩ : ∃ b, findBlock cfg r = some b := by
      cases hfbq : findBlock cfg r with
      | none =>
        rw [blockLiveN, hfbq] at hbpos
        exact absurd hbpos (by simp)
      | some b => exact ⟨b, rfl⟩
    have hlen : 0 < (b.entries.filter (isLiveLabel eval defId r insn.uid)).length := by
      rw [blockLiveN, hfb] at hbpos
      exact hbpos
    have hfnb : findBlock (neutralizeCfg eval defId insn.uid ss cfg) r =
        some { b with entries := b.entries.map (neutralizeMie eval defId r insn.uid) } := by
      rw [findBlock_neutralizeCfg_mem eval defId insn.uid ss cfg r hnd hrmem, hfb]
      rfl
    have hany := neutralized_any_label eval defId r insn.uid b.entries hlen
    have hch : (rds_retarget insn.uid
        (b.entries.map (neutralizeMie eval defId r insn.uid)) false).2 = true := by
      rw [rds_retarget_changed]
      simp [hany]
    rw [h1, hfr] at hres
    have hd1 : (decide ((1 : Nat) ≤ 1)) = true := by decide
    rw [hd1] at hres
    simp only [Bool.not_true, Bool.false_eq_true, if_false,
      hfnb, hch, if_true, Option.some.injEq, Prod.mk.injEq] at hres
    refine ⟨?_, hres.2.symm⟩
    rw [promoteFirstLabel, hfnb]
    exact hres.1.symm
  · intro h2
    have hd : decide (totalLiveN eval defId insn.uid ss cfg ≤ 1) = false :=
      decide_eq_false (by omega)
    rw [hd] at hres
    simp only [Bool.not_false, if_true, Option.some.injEq, Prod.mk.injEq] at hres
    exact ⟨hres.1.symm, hres.2.symm⟩

/-- Witness for C3: the spec's concrete scenario.  A switch on a register
statically equal to 2 with case labels 1, 2 and 3 targeting distinct blocks is
rewritten into a goto: labels 1 and 3 are neutralized, label 2 is promoted to
the goto's simple target, the switch is replaced by a single goto instruction,
and exactly one `branches_removed` increment is recorded. -/
theorem c3_remove_dead_switch_witness :
    (remove_dead_switch c9K c3env c3cfg c3b0 TState.init =
      some (c3cfg2, ⟨[(c3insn, [gotoInsn])], [], 0, 1⟩)) ∧
    (c3cfg2 = promoteFirstLabel c3insn.uid 2
        (neutralizeCfg (c3env.getReg (c3insn.src 0)) 4 c3insn.uid
          ((c3b0.succs.map Edge.target).dedup) c3cfg) ∧
     (⟨[(c3insn, [gotoInsn])], [], 0, 1⟩ : TState) =
       (TState.init.incBranches).addRepl c3insn [gotoInsn]) :=
  ⟨by decide,
   (c3_remove_dead_switch c9K c3env c3cfg c3b0 TState.init c3insn 4 c3cfg2
      ⟨[(c3insn, [gotoInsn])], [], 0, 1⟩ (by decide) (by decide) (by decide) (by decide)
      (by decide) (by decide) (by decide)).2.1 2 (by decide) (by decide)⟩

theorem neutralizeMie_insns (eval : SignedConstantDomain) (defId s uid : Nat) (es : List Mie) :
    (es.map (neutralizeMie eval defId s uid)).filterMap mieInsn = es.filterMap mieInsn := by
  induction es with
  | nil => rfl
  | cons e es ih =>
    cases e with
    | insn i => simp [neutralizeMie, isSwitchLabel, mieInsn, ih]
    | target bt src key =>
      have hm : mieInsn (neutralizeMie eval defId s uid (Mie.target bt src key)) = none := by
        unfold neutralizeMie
        split <;> rfl
      have hm2 : mieInsn (Mie.target bt src key) = none := rfl
      simp only [List.map_cons, List.filterMap_cons, hm, hm2, ih]
    | fallthrough => simp [neutralizeMie, isSwitchLabel, mieInsn, ih]

theorem rds_retarget_insns (uid : Nat) (es : List Mie) (c : Bool) :
    (rds_retarget uid es c).1.filterMap mieInsn = es.filterMap mieInsn := by
  induction es generalizing c with
  | nil => rfl
  | cons e es ih =>
    cases e with
    | insn i =>
      have hl : isSwitchLabel uid (Mie.insn i) = false := rfl
      simp [rds_retarget, hl, mieInsn, ih]
    | target bt src key =>
      by_cases hl : isSwitchLabel uid (Mie.target bt src key) = true
      · cases c <;> simp [rds_retarget, hl, mieInsn, ih]
      · have hl' : isSwitchLabel uid (Mie.target bt src key) = false := by simpa using hl
        simp [rds_retarget, hl', mieInsn, ih]
    | fallthrough =>
      have hl : isSwitchLabel uid Mie.fallthrough = false := rfl
      simp [rds_retarget, hl, mieInsn, ih]

theorem blocksInsns_update (bs : List Block) (s : Nat) (es : List Mie) (b : Block)
    (hnd : (bs.map Block.id).Nodup)
    (hfb : bs.find? (fun x => decide (x.id = s)) = some b)
    (hes : es.filterMap mieInsn = b.entries.filterMap mieInsn) :
    (bs.map fun x => if x.id = s then { x with entries := es } else x).map
        (fun x => (x.id, x.entries.filterMap mieInsn)) =
      bs.map (fun x => (x.id, x.entries.filterMap mieInsn)) := by
  induction bs with
  | nil => rfl
  | cons x bs ih =>
    rw [List.map_cons, List.nodup_cons] at hnd
    obtain ⟨hx, hnd0⟩ := hnd
    by_cases hid : x.id = s
    · have hd : decide (x.id = s) = true := decide_eq_true hid
      rw [List.find?, hd] at hfb
      injection hfb with hfb
      subst hfb
      have htail : (bs.map fun y => if y.id = s then { y with entries := es } else y) = bs := by
        refine (List.map_congr_left fun y hy => if_neg fun h => ?_).trans (List.map_id bs)
        refine hx ?_
        rw [hid, ← h]
        exact List.mem_map_of_mem Block.id hy
      simp only [List.map_cons, if_pos hid, htail]
      simp [hes]
    · have hd : decide (x.id = s) = false := decide_eq_false hid
      rw [List.find?, hd] at hfb
      simp only [List.map_cons, if_neg hid, ih hnd0 hfb]

theorem cfgInsns_update (cfg : Cfg) (s : Nat) (es : List Mie) (b : Block)
    (hnd : (cfg.blocks.map Block.id).Nodup)
    (hfb : findBlock cfg s = some b)
    (hes : es.filterMap mieInsn = b.entries.filterMap mieInsn) :
    cfgInsns (updateBlock cfg s es) = cfgInsns cfg :=
  blocksInsns_update cfg.blocks s es b hnd hfb hes

theorem neutralizeCfg_ids (eval : SignedConstantDomain) (defId uid : Nat)
    (ss : List Nat) (cfg : Cfg) :
    (neutralizeCfg eval defId uid ss cfg).blocks.map Block.id = cfg.blocks.map Block.id := by
  induction ss generalizing cfg with
  | nil => rfl
  | cons s ss ih =>
    cases hf : findBlock cfg s with
    | none => simp only [neutralizeCfg, hf, ih]
    | some b =>
      simp only [neutralizeCfg, hf]
      rw [ih, updateBlock_ids]

theorem cfgInsns_neutralizeCfg (eval : SignedConstantDomain) (defId uid : Nat)
    (ss : List Nat) (cfg : Cfg) (hnd : (cfg.blocks.map Block.id).Nodup) :
    cfgInsns (neutralizeCfg eval defId uid ss cfg) = cfgInsns cfg := by
  induction ss generalizing cfg with
  | nil => rfl
  | cons s ss ih =>
    cases hf : findBlock cfg s with
    | none => simp only [neutralizeCfg, hf, ih cfg hnd]
    | some b =>
      simp only [neutralizeCfg, hf]
      rw [ih _ (by rw [updateBlock_ids]; exact hnd),
          cfgInsns_update cfg s _ b hnd hf (neutralizeMie_insns eval defId s uid b.entries)]

theorem rds_preserves (K : Config) (env : ConstantEnvironment) (cfg : Cfg) (block : Block)
    (st : TState) (cfg' : Cfg) (st' : TState)
    (hnd : (cfg.blocks.map Block.id).Nodup)
    (hres : remove_dead_switch K env cfg block st = some (cfg', st')) :
    cfg'.blocks.map Block.id = cfg.blocks.map Block.id ∧ cfgInsns cfg' = cfgInsns cfg := by
  unfold remove_dead_switch at hres
  split at hres
  · simp only [Option.some.injEq, Prod.mk.injEq] at hres
    rw [← hres.1]
    exact ⟨rfl, rfl⟩
  split at hres
  · simp only [Option.some.injEq, Prod.mk.injEq] at hres
    rw [← hres.1]
    exact ⟨rfl, rfl⟩
  split at hres
  · exact absurd hres (by simp)
  next insn hlast =>
    split at hres
    · exact absurd hres (by simp)
    split at hres
    · exact absurd hres (by simp)
    · exact absurd hres (by simp)
    next defId hdef =>
      dsimp only at hres
      rw [rds_scan_succs_eq (env.getReg (insn.src 0)) defId insn.uid
            ((block.succs.map Edge.target).dedup) cfg none
            (!(env.getReg (insn.src 0)).is_top)
            (List.nodup_dedup (block.succs.map Edge.target))] at hres
      split at hres
      · simp only [Option.some.injEq, Prod.mk.injEq] at hres
        rw [← hres.1]
        exact ⟨neutralizeCfg_ids _ _ _ _ _,
               cfgInsns_neutralizeCfg _ _ _ _ _ hnd⟩
      split at hres
      · simp only [Option.some.injEq, Prod.mk.injEq] at hres
        rw [← hres.1]
        exact ⟨neutralizeCfg_ids _ _ _ _ _,
               cfgInsns_neutralizeCfg _ _ _ _ _ hnd⟩
      next r hreach =>
        split at hres
        · exact absurd hres (by simp)
        next rb hfb =>
          split at hres
          · simp only [Option.some.injEq, Prod.mk.injEq] at hres
            rw [← hres.1]
            constructor
            · rw [updateBlock_ids, neutralizeCfg_ids]
            · rw [cfgInsns_update _ r _ rb
                    (by rw [neutralizeCfg_ids]; exact hnd) hfb
                    (rds_retarget_insns insn.uid rb.entries false),
                  cfgInsns_neutralizeCfg _ _ _ _ _ hnd]
          · exact absurd hres (by simp)

theorem edb_preserves (K : Config) (intra : FixpointIterator) (env : ConstantEnvironment)
    (cfg : Cfg) (block : Block) (st : TState) (cfg' : Cfg) (st' : TState)
    (hnd : (cfg.blocks.map Block.id).Nodup)
    (hres : eliminate_dead_branch K intra env cfg block st = some (cfg', st')) :
    cfg'.blocks.map Block.id = cfg.blocks.map Block.id ∧ cfgInsns cfg' = cfgInsns cfg := by
  unfold eliminate_dead_branch at hres
  split at hres
  · simp only [Option.some.injEq, Prod.mk.injEq] at hres
    rw [← hres.1]
    exact ⟨rfl, rfl⟩
  next insn hlast =>
    split at hres
    · exact rds_preserves K env cfg block st cfg' st' hnd hres
    split at hres
    · simp only [Option.some.injEq, Prod.mk.injEq] at hres
      rw [← hres.1]
      exact ⟨rfl, rfl⟩
    dsimp only at hres
    split at hres
    · split at hres
      · simp only [Option.some.injEq, Prod.mk.injEq] at hres
        rw [← hres.1]
        exact ⟨rfl, rfl⟩
      · split at hres <;>
          (simp only [Option.some.injEq, Prod.mk.injEq] at hres
           rw [← hres.1]
           exact ⟨rfl, rfl⟩)
    · exact absurd hres (by simp)

theorem processBlock_preserves (K : Config) (rf : Nat → Option DexField)
    (intra : FixpointIterator) (wps : WholeProgramState) (cfg : Cfg) (st : TState)
    (bid : Nat) (cfg1 : Cfg) (st1 : TState)
    (hnd : (cfg.blocks.map Block.id).Nodup)
    (hpb : processBlock K rf intra wps (cfg, st) bid = some (cfg1, st1)) :
    cfg1.blocks.map Block.id = cfg.blocks.map Block.id ∧ cfgInsns cfg1 = cfgInsns cfg := by
  unfold processBlock at hpb
  dsimp only at hpb
  split at hpb
  · simp only [Option.some.injEq, Prod.mk.injEq] at hpb
    rw [← hpb.1]
    exact ⟨rfl, rfl⟩
  next b hfb =>
    split at hpb
    · simp only [Option.some.injEq, Prod.mk.injEq] at hpb
      rw [← hpb.1]
      exact ⟨rfl, rfl⟩
    · split at hpb
      · exact absurd hpb (by simp)
      next r hwalk =>
        exact edb_preserves K intra r.1 cfg b r.2 cfg1 st1 hnd hpb

/-- C6 (amended): during the traversal phase of `Transform::apply`, no
instruction is replaced or deleted in the CFG — every block keeps its id and
its exact instruction sequence, instruction changes existing only as batched
replacement/deletion records applied by `apply_changes` afterwards.  (The
original claim's stronger "analysis functions never mutate the CFG" is false:
`remove_dead_switch` neutralizes switch-target label entries in place, see the
counterexample.) -/
theorem c6_traversal_preserves_instructions (K : Config) (rf : Nat → Option DexField)
    (intra : FixpointIterator) (wps : WholeProgramState)
    (ids : List Nat) (cfg : Cfg) (st : TState) (cfg' : Cfg) (st' : TState)
    (hnd : (cfg.blocks.map Block.id).Nodup)
    (hres : traverseBlocks K rf intra wps ids cfg st = some (cfg', st')) :
    cfg'.blocks.map Block.id = cfg.blocks.map Block.id ∧ cfgInsns cfg' = cfgInsns cfg := by
  induction ids generalizing cfg st with
  | nil =>
    simp only [traverseBlocks, Option.some.injEq, Prod.mk.injEq] at hres
    rw [← hres.1]
    exact ⟨rfl, rfl⟩
  | cons bid ids ih =>
    cases hpb : processBlock K rf intra wps (cfg, st) bid with
    | none =>
      simp only [traverseBlocks, hpb] at hres
      exact absurd hres (by simp)
    | some acc =>
      obtain ⟨cfg1, st1⟩ := acc
      simp only [traverseBlocks, hpb] at hres
      have hp := processBlock_preserves K rf intra wps cfg st bid cfg1 st1 hnd hpb
      have hnd1 : (cfg1.blocks.map Block.id).Nodup := by
        rw [hp.1]
        exact hnd
      have ih' := ih cfg1 st1 hnd1 hres
      exact ⟨ih'.1.trans hp.1, ih'.2.trans hp.2⟩

/-- Counterexample to C6 as stated: the read-only traversal alone (no
`apply_changes` involved) already returns a CFG different from its input,
because `remove_dead_switch` rewrites switch-target label entries in place
while the blocks are being iterated. -/
theorem c6_counterexample :
    (traverseBlocks c9K demoRf c6intra demoWps [0] c3cfg TState.init).map Prod.fst ≠
      some c3cfg := by decide

/-- Witness for the amended C6 on the counterexample's own scenario: the
traversal that neutralized two switch labels still preserved every block id
and the exact instruction sequences. -/
theorem c6_traversal_preserves_instructions_witness :
    ((c3cfg.blocks.map Block.id).Nodup ∧
     traverseBlocks c9K demoRf c6intra demoWps [0] c3cfg TState.init =
       some (c3cfg2, ⟨[(c3insn, [gotoInsn])], [], 0, 1⟩)) ∧
    (c3cfg2.blocks.map Block.id = c3cfg.blocks.map Block.id ∧
     cfgInsns c3cfg2 = cfgInsns c3cfg) :=
  ⟨⟨by decide, by decide⟩,
   c6_traversal_preserves_instructions c9K demoRf c6intra demoWps [0] c3cfg TState.init c3cfg2
     ⟨[(c3insn, [gotoInsn])], [], 0, 1⟩ (by decide) (by decide)⟩

theorem findDefault_ok (es : List Edge) (acc : Option Nat)
    (hall : es.all (fun e => decide (e.ttype = EdgeType.goto) ||
      decide (e.ttype = EdgeType.branch)) = true)
    (hone : (es.filter (fun e => decide (e.ttype = EdgeType.goto))).length +
      (if acc.isSome then 1 else 0) = 1) :
    ∃ d, findDefault es acc = some (some d) := by
  induction es generalizing acc with
  | nil =>
    simp only [List.filter_nil, List.length_nil, Nat.zero_add] at hone
    cases acc with
    | none => simp at hone
    | some d => exact ⟨d, rfl⟩
  | cons e es ih =>
    simp only [List.all_cons, Bool.and_eq_true] at hall
    cases ht : e.ttype with
    | goto =>
      have hd : decide (e.ttype = EdgeType.goto) = true := by simp [ht]
      rw [List.filter_cons, hd] at hone
      simp only [if_true, List.length_cons] at hone
      cases acc with
      | some x => simp at hone
      | none =>
        simp only [findDefault, ht]
        refine ih (some e.target) hall.2 ?_
        simp only [Option.isSome_some, if_true, Option.isSome_none, Bool.false_eq_true,
          if_false] at hone ⊢
        omega
    | branch =>
      have hd : decide (e.ttype = EdgeType.goto) = false := by simp [ht]
      rw [List.filter_cons, hd] at hone
      simp only [Bool.false_eq_true, if_false] at hone
      simp only [findDefault, ht]
      exact ih acc hall.2 hone
    | ghost =>
      rw [ht] at hall
      simp at hall

theorem branchReplsOk_append_single (l : List (IRInstruction × List IRInstruction))
    (t n : IRInstruction) (h : branchReplsOk l = true) :
    branchReplsOk (l ++ [(t, [n])]) = true := by
  simp only [branchReplsOk, List.all_append, Bool.and_eq_true] at *
  exact ⟨h, by simp⟩

theorem erp_replacements (K : Config) (rf : Nat → Option DexField) (env : ConstantEnvironment)
    (wps : WholeProgramState) (insn : IRInstruction) (st : TState) :
    (eliminate_redundant_put K rf env wps insn st).replacements = st.replacements := by
  unfold eliminate_redundant_put
  split
  · split
    · rfl
    · dsimp only
      (repeat' split) <;> rfl
  · rfl

theorem vti_shape (v : SignedConstantDomain) (insn : IRInstruction) :
    value_to_instruction v insn = [] ∨ ∃ a, value_to_instruction v insn = [a] := by
  cases v <;> simp [value_to_instruction]

theorem rwc_ok (env : ConstantEnvironment) (prev : Option Mie) (insn : IRInstruction)
    (st st' : TState) (hres : replace_with_const env prev insn st = some st')
    (h : branchReplsOk st.replacements = true) : branchReplsOk st'.replacements = true := by
  dsimp only [replace_with_const] at hres
  by_cases hlen : (value_to_instruction (env.getReg insn.dest) insn).length = 0
  · rw [if_pos hlen] at hres
    injection hres with hres
    rw [← hres]
    exact h
  · rw [if_neg hlen] at hres
    rcases vti_shape (env.getReg insn.dest) insn with hnil | ⟨a, ha⟩
    · rw [hnil] at hlen
      simp at hlen
    · by_cases hp : is_move_result_pseudo insn.opcode = true
      · rw [if_pos hp] at hres
        cases hpr : primaryOf prev with
        | none =>
          rw [hpr] at hres
          exact absurd hres (by simp)
        | some p =>
          rw [hpr] at hres
          injection hres with hres
          rw [← hres, ha]
          exact branchReplsOk_append_single st.replacements _ a h
      · rw [if_neg hp] at hres
        injection hres with hres
        rw [← hres, ha]
        exact branchReplsOk_append_single st.replacements _ a h

theorem simplify_ok (K : Config) (env : ConstantEnvironment) (prev : Option Mie)
    (insn : IRInstruction) (st st' : TState)
    (hres : simplify_instruction K env prev insn st = some st')
    (h : branchReplsOk st.replacements = true) : branchReplsOk st'.replacements = true := by
  unfold simplify_instruction at hres
  split at hres
  all_goals
    first
      | (injection hres with hres2
         rw [← hres2]
         exact h)
      | (split at hres
         · exact rwc_ok env prev insn st st' hres h
         · injection hres with hres2
           rw [← hres2]
           exact h)
      | (split at hres
         · exact absurd hres (by simp)
         · split at hres
           · exact rwc_ok env prev insn st st' hres h
           · injection hres with hres2
             rw [← hres2]
             exact h)

theorem walk_ok (K : Config) (rf : Nat → Option DexField) (intra : FixpointIterator)
    (wps : WholeProgramState) (es : List Mie) (prev : Option Mie)
    (env : ConstantEnvironment) (st : TState) (env' : ConstantEnvironment) (st' : TState)
    (hres : walkEntries K rf intra wps es prev env st = some (env', st'))
    (h : branchReplsOk st.replacements = true) : branchReplsOk st'.replacements = true := by
  induction es generalizing prev env st with
  | nil =>
    simp only [walkEntries, Option.some.injEq, Prod.mk.injEq] at hres
    rw [← hres.2]
    exact h
  | cons e es ih =>
    cases e with
    | insn i =>
      dsimp only [walkEntries] at hres
      cases hsi : simplify_instruction K (intra.analyze_instruction i env) prev i
          (eliminate_redundant_put K rf env wps i st) with
      | none =>
        rw [hsi] at hres
        exact absurd hres (by simp)
      | some st2 =>
        rw [hsi] at hres
        refine ih _ _ _ hres ?_
        refine simplify_ok K (intra.analyze_instruction i env) prev i _ st2 hsi ?_
        rw [erp_replacements K rf env wps i st]
        exact h
    | target bt src key => exact ih _ _ _ hres h
    | fallthrough => exact ih _ _ _ hres h

theorem rds_ok (K : Config) (env : ConstantEnvironment) (cfg : Cfg) (block : Block)
    (st : TState) (cfg' : Cfg) (st' : TState)
    (hres : remove_dead_switch K env cfg block st = some (cfg', st'))
    (h : branchReplsOk st.replacements = true) : branchReplsOk st'.replacements = true := by
  unfold remove_dead_switch at hres
  split at hres
  · simp only [Option.some.injEq, Prod.mk.injEq] at hres
    rw [← hres.2]
    exact h
  split at hres
  · simp only [Option.some.injEq, Prod.mk.injEq] at hres
    rw [← hres.2]
    exact h
  split at hres
  · exact absurd hres (by simp)
  next insn hlast =>
    split at hres
    · exact absurd hres (by simp)
    split at hres
    · exact absurd hres (by simp)
    · exact absurd hres (by simp)
    next defId hdef =>
      dsimp only at hres
      split at hres
      · simp only [Option.some.injEq, Prod.mk.injEq] at hres
        rw [← hres.2]
        exact h
      split at hres
      · simp only [Option.some.injEq, Prod.mk.injEq] at hres
        rw [← hres.2]
        exact (by simpa [TState.incBranches, TState.addDelete, branchReplsOk] using h)
      next r hreach =>
        split at hres
        · exact absurd hres (by simp)
        next rb hfb =>
          split at hres
          · simp only [Option.some.injEq, Prod.mk.injEq] at hres
            rw [← hres.2]
            exact branchReplsOk_append_single st.replacements insn gotoInsn h
          · exact absurd hres (by simp)

theorem edb_ok (K : Config) (intra : FixpointIterator) (env : ConstantEnvironment)
    (cfg : Cfg) (block : Block) (st : TState) (cfg' : Cfg) (st' : TState)
    (hres : eliminate_dead_branch K intra env cfg block st = some (cfg', st'))
    (h : branchReplsOk st.replacements = true) : branchReplsOk st'.replacements = true := by
  unfold eliminate_dead_branch at hres
  split at hres
  · simp only [Option.some.injEq, Prod.mk.injEq] at hres
    rw [← hres.2]
    exact h
  next insn hlast =>
    split at hres
    · exact rds_ok K env cfg block st cfg' st' hres h
    split at hres
    · simp only [Option.some.injEq, Prod.mk.injEq] at hres
      rw [← hres.2]
      exact h
    dsimp only at hres
    split at hres
    · split at hres
      · simp only [Option.some.injEq, Prod.mk.injEq] at hres
        rw [← hres.2]
        exact h
      · split at hres
        · simp only [Option.some.injEq, Prod.mk.injEq] at hres
          rw [← hres.2]
          exact branchReplsOk_append_single st.replacements insn gotoInsn h
        · simp only [Option.some.injEq, Prod.mk.injEq] at hres
          rw [← hres.2]
          exact (by simpa [TState.incBranches, TState.addDelete, branchReplsOk] using h)
    · exact absurd hres (by simp)

theorem traverse_ok (K : Config) (rf : Nat → Option DexField) (intra : FixpointIterator)
    (wps : WholeProgramState) (ids : List Nat) (cfg : Cfg) (st : TState)
    (cfg' : Cfg) (st' : TState)
    (hres : traverseBlocks K rf intra wps ids cfg st = some (cfg', st'))
    (h : branchReplsOk st.replacements = true) : branchReplsOk st'.replacements = true := by
  induction ids generalizing cfg st with
  | nil =>
    simp only [traverseBlocks, Option.some.injEq, Prod.mk.injEq] at hres
    rw [← hres.2]
    exact h
  | cons bid ids ih =>
    cases hpb : processBlock K rf intra wps (cfg, st) bid with
    | none =>
      simp only [traverseBlocks, hpb] at hres
      exact absurd hres (by simp)
    | some acc =>
      obtain ⟨cfg1, st1⟩ := acc
      simp only [traverseBlocks, hpb] at hres
      refine ih cfg1 st1 hres ?_
      unfold processBlock at hpb
      dsimp only at hpb
      split at hpb
      · simp only [Option.some.injEq, Prod.mk.injEq] at hpb
        rw [← hpb.2]
        exact h
      next b hfb =>
        split at hpb
        · simp only [Option.some.injEq, Prod.mk.injEq] at hpb
          rw [← hpb.2]
          exact h
        · split at hpb
          · exact absurd hpb (by simp)
          next r hwalk =>
            obtain ⟨envr, str⟩ := r
            exact edb_ok K intra envr cfg b str cfg1 st1 hpb
              (walk_ok K rf intra wps b.entries none (intra.entry_state bid) st envr str hwalk h)

theorem rds_isSome (K : Config) (env : ConstantEnvironment) (cfg : Cfg) (block : Block)
    (st : TState) (insn : IRInstruction)
    (hlast : block.lastInsn = some insn)
    (hsw : is_switch insn.opcode = true)
    (hone : (block.succs.filter (fun e => decide (e.ttype = EdgeType.goto))).length = 1)
    (hall : block.succs.all (fun e => decide (e.ttype = EdgeType.goto) ||
      decide (e.ttype = EdgeType.branch)) = true) :
    (remove_dead_switch K env cfg block st).isSome = true := by
  unfold remove_dead_switch
  split
  · simp
  split
  · simp
  obtain ⟨d, hd⟩ := findDefault_ok block.succs none hall (by simpa using hone)
  simp only [hlast, hsw, Bool.not_true, Bool.false_eq_true, if_false, hd]
  try dsimp only
  rw [rds_scan_succs_eq (env.getReg (insn.src 0)) d insn.uid
        ((block.succs.map Edge.target).dedup) cfg none
        (!(env.getReg (insn.src 0)).is_top) (List.nodup_dedup _)]
  split
  · simp
  split
  · simp
  next r hreach =>
    have hrmem : r ∈ (block.succs.map Edge.target).dedup :=
      List.mem_of_find?_eq_some hreach
    have hbpos : 0 < blockLiveN (env.getReg (insn.src 0)) d insn.uid cfg r := by
      have := List.find?_some hreach
      simpa using this
    obtain ⟨b, hfb⟩ : ∃ b, findBlock cfg r = some b := by
      cases hq : findBlock cfg r with
      | none =>
        rw [blockLiveN, hq] at hbpos
        exact absurd hbpos (by simp)
      | some b => exact ⟨b, rfl⟩
    have hlen : 0 < (b.entries.filter
        (isLiveLabel (env.getReg (insn.src 0)) d r insn.uid)).length := by
      rw [blockLiveN, hfb] at hbpos
      exact hbpos
    have hfnb : findBlock (neutralizeCfg (env.getReg (insn.src 0)) d insn.uid
        ((block.succs.map Edge.target).dedup) cfg) r =
        some { b with entries :=
          b.entries.map (neutralizeMie (env.getReg (insn.src 0)) d r insn.uid) } := by
      rw [findBlock_neutralizeCfg_mem (env.getReg (insn.src 0)) d insn.uid
            ((block.succs.map Edge.target).dedup) cfg r (List.nodup_dedup _) hrmem, hfb]
      rfl
    have hch : (rds_retarget insn.uid
        (b.entries.map (neutralizeMie (env.getReg (insn.src 0)) d r insn.uid)) false).2 =
        true := by
      rw [rds_retarget_changed]
      simp [neutralized_any_label (env.getReg (insn.src 0)) d r insn.uid b.entries hlen]
    simp only [hfnb, hch, if_true]
    simp

theorem edb_isSome (K : Config) (intra : FixpointIterator) (env : ConstantEnvironment)
    (cfg : Cfg) (block : Block) (st : TState) (hwf : wfBlock block = true) :
    (eliminate_dead_branch K intra env cfg block st).isSome = true := by
  unfold eliminate_dead_branch
  split
  · simp
  next insn hlast =>
    unfold wfBlock at hwf
    rw [hlast] at hwf
    simp only [Bool.and_eq_true] at hwf
    by_cases hsw : is_switch insn.opcode = true
    · rw [if_pos hsw]
      have hw2 := hwf.2
      rw [if_pos hsw] at hw2
      simp only [Bool.and_eq_true, decide_eq_true_eq] at hw2
      exact rds_isSome K env cfg block st insn hlast hsw (by simpa using hw2.1) hw2.2
    · have hns : is_switch insn.opcode = false := by simpa using hsw
      simp only [hns, Bool.false_eq_true, if_false]
      by_cases hcb : is_conditional_branch insn.opcode = true
      · have h2 := hwf.1
        rw [if_pos hcb] at h2
        simp only [decide_eq_true_eq] at h2
        simp only [hcb, Bool.not_true, Bool.false_eq_true, if_false]
        try dsimp only
        rw [if_pos h2]
        split
        · simp
        · split <;> simp
      · have hcb' : is_conditional_branch insn.opcode = false := by simpa using hcb
        simp [hcb']

theorem applyRepls_isSome (l : List (IRInstruction × List IRInstruction)) (cfg : Cfg)
    (h : branchReplsOk l = true) : (applyRepls l cfg).isSome = true := by
  induction l generalizing cfg with
  | nil => simp [applyRepls]
  | cons p l ih =>
    obtain ⟨old, news⟩ := p
    simp only [branchReplsOk, List.all_cons, Bool.and_eq_true] at h
    unfold applyRepls
    split
    next hbr =>
      have hlen : news.length = 1 := by
        have h1 := h.1
        rw [hbr] at h1
        simpa using h1
      rw [if_pos hlen]
      exact ih _ h.2
    next hbr => exact ih _ h.2

theorem apply_changes_isSome (st : TState) (cfg : Cfg)
    (h : branchReplsOk st.replacements = true) : (apply_changes st cfg).isSome = true := by
  unfold apply_changes
  cases har : applyRepls st.replacements cfg with
  | none =>
    have := applyRepls_isSome st.replacements cfg h
    rw [har] at this
    simp at this
  | some c1 => simp

theorem edb_malformed (K : Config) (intra : FixpointIterator) (env : ConstantEnvironment)
    (cfg : Cfg) (block : Block) (st : TState) (insn : IRInstruction)
    (hlast : block.lastInsn = some insn)
    (hcb : is_conditional_branch insn.opcode = true)
    (hlen : (block.succs.filter (fun e => decide (e.ttype ≠ EdgeType.ghost))).length ≠ 2) :
    eliminate_dead_branch K intra env cfg block st = none := by
  have hns : is_switch insn.opcode = false := cond_branch_not_switch insn.opcode hcb
  unfold eliminate_dead_branch
  simp only [hlast, hns, Bool.false_eq_true, if_false, hcb, Bool.not_true]
  try dsimp only
  rw [if_neg hlen]

/-- C7: Fatal-invariant safety.  Under the CFG well-formedness preconditions
(`wfBlock`: a conditional-branch block has exactly two non-ghost successor
edges, a switch block one GOTO default edge and otherwise only BRANCH edges),
the assertion-failure branches of `eliminate_dead_branch` and
`remove_dead_switch` are unreachable (the functions never abort); every branch
replacement the traversal records has exactly one instruction, so the
single-instruction assertion in `apply_changes` never fires; and a block that
violates the conditional-branch shape makes `eliminate_dead_branch` abort
rather than being handled. -/
theorem c7_invariant_safety (K : Config) (rf : Nat → Option DexField)
    (intra : FixpointIterator) (wps : WholeProgramState) :
    (∀ env cfg block st, wfBlock block = true →
       (eliminate_dead_branch K intra env cfg block st).isSome = true) ∧
    (∀ st cfg, branchReplsOk st.replacements = true →
       (apply_changes st cfg).isSome = true) ∧
    (∀ ids cfg st cfg' st', branchReplsOk st.replacements = true →
       traverseBlocks K rf intra wps ids cfg st = some (cfg', st') →
       branchReplsOk st'.replacements = true) ∧
    (∀ env cfg block st insn, block.lastInsn = some insn →
       is_conditional_branch insn.opcode = true →
       (block.succs.filter (fun e => decide (e.ttype ≠ EdgeType.ghost))).length ≠ 2 →
       eliminate_dead_branch K intra env cfg block st = none) :=
  ⟨fun env cfg block st hwf => edb_isSome K intra env cfg block st hwf,
   fun st cfg h => apply_changes_isSome st cfg h,
   fun ids cfg st cfg' st' h hres => traverse_ok K rf intra wps ids cfg st cfg' st' hres h,
   fun env cfg block st insn hlast hcb hlen =>
     edb_malformed K intra env cfg block st insn hlast hcb hlen⟩

/-- Witness for C7: a well-formed two-successor `if-eq` block never aborts; an
empty batch passes `apply_changes`; a traversal that records a goto
replacement keeps every branch replacement single-instruction; and the same
`if-eq` instruction in a block with only one non-ghost successor aborts. -/
theorem c7_invariant_safety_witness :
    (wfBlock c2block = true ∧
     (eliminate_dead_branch c9K c2intra envAllTop c2cfg c2block TState.init).isSome = true) ∧
    (branchReplsOk TState.init.replacements = true ∧
     (apply_changes TState.init c2cfg).isSome = true) ∧
    (branchReplsOk TState.init.replacements = true ∧
     traverseBlocks c9K demoRf c2intra demoWps [0] c2cfg TState.init =
       some (c2cfg, ⟨[(c2insn, [gotoInsn])], [], 0, 1⟩) ∧
     branchReplsOk (⟨[(c2insn, [gotoInsn])], [], 0, 1⟩ : TState).replacements = true) ∧
    (c7badBlock.lastInsn = some c2insn ∧
     is_conditional_branch c2insn.opcode = true ∧
     (c7badBlock.succs.filter (fun e => decide (e.ttype ≠ EdgeType.ghost))).length ≠ 2 ∧
     eliminate_dead_branch c9K c2intra envAllTop c2cfg c7badBlock TState.init = none) :=
  ⟨⟨by decide,
    (c7_invariant_safety c9K demoRf c2intra demoWps).1 envAllTop c2cfg c2block TState.init
      (by decide)⟩,
   ⟨by decide,
    (c7_invariant_safety c9K demoRf c2intra demoWps).2.1 TState.init c2cfg (by decide)⟩,
   ⟨by decide, by decide,
    (c7_invariant_safety c9K demoRf c2intra demoWps).2.2.1 [0] c2cfg TState.init c2cfg
      ⟨[(c2insn, [gotoInsn])], [], 0, 1⟩ (by decide) (by decide)⟩,
   ⟨by decide, by decide, by decide,
    (c7_invariant_safety c9K demoRf c2intra demoWps).2.2.2 envAllTop c2cfg c7badBlock
      TState.init c2insn (by decide) (by decide) (by decide)⟩⟩
